import Mathlib

/-!
Verification of the fair-tournament engine: `tournament_helpers.py` and
`tournament_fair.py` (the fair match builder, the shared-opening scheduler,
the round-robin driver and the result aggregator), embedded shallowly.

Randomness (Python's global `random` module) is embedded as an explicit
stream of draws threaded through every function that the source lets touch
the random state.  The external play-to-completion collaborator
(`Board.play`) is embedded as an `Except`-valued oracle so that a per-game
failure can be observed to propagate.
-/

/-- A board coordinate `(row, col)`, as used throughout the source. -/
abbrev Move := Nat × Nat

/-- The state of Python's global pseudo-random generator: an infinite stream
of draws (`seq`) together with how many draws have been consumed (`idx`).
`random.choice` consumes exactly one draw. -/
structure Rng where
  seq : Nat → Nat
  idx : Nat

/-- Consume one draw from the random stream. -/
def Rng.next (r : Rng) : Nat × Rng := (r.seq r.idx, ⟨r.seq, r.idx + 1⟩)

/-- Modelled from the spec: the external Board collaborator (spec section 6)
of `isolation.Board`, which is not part of the three source files.  It
exposes exactly what the spec requires: the two registered competitors
(`player1` registered first-to-move), the dimensions, the occupied-cell
footprint (`occupied`, in application order), each competitor's current
location, and whose turn it is.  A fresh board is empty with `player1`
active. -/
structure Board (P : Type) where
  player1 : P
  player2 : P
  width : Nat
  height : Nat
  occupied : List Move
  p1_loc : Option Move
  p2_loc : Option Move
  active_is_p1 : Bool
deriving DecidableEq

/-- Modelled from the spec: `Board(player_1, player_2, width, height)` —
a fresh empty board with `player1` registered as first mover. -/
def Board.init (player1 player2 : P) (width height : Nat) : Board P :=
  ⟨player1, player2, width, height, [], none, none, true⟩

/-- Modelled from the spec: the competitor whose turn it currently is. -/
def Board.active_player (b : Board P) : P :=
  if b.active_is_p1 then b.player1 else b.player2

/-- Modelled from the spec: the competitor waiting for its turn. -/
def Board.inactive_player (b : Board P) : P :=
  if b.active_is_p1 then b.player2 else b.player1

/-- Modelled from the spec: `Board.apply_move` moves the active competitor
to the given cell, marks the cell occupied, and toggles turn ownership. -/
def Board.apply_move (b : Board P) (m : Move) : Board P :=
  { b with
    occupied := b.occupied ++ [m]
    p1_loc := if b.active_is_p1 then some m else b.p1_loc
    p2_loc := if b.active_is_p1 then b.p2_loc else some m
    active_is_p1 := !b.active_is_p1 }

/-- The blank (not yet occupied) cells of a board with the given dimensions
and occupied-cell footprint, column-major as in the collaborator. -/
def blank_spaces_of (width height : Nat) (occupied : List Move) : List Move :=
  (List.range width).flatMap fun j =>
    (List.range height).filterMap fun i =>
      if (i, j) ∈ occupied then none else some (i, j)

/-- Modelled from the spec: `Board.get_blank_spaces`, the occupied-cell
footprint's complement, used by the tests to compare footprints. -/
def Board.get_blank_spaces (b : Board P) : List Move :=
  blank_spaces_of b.width b.height b.occupied

/-- Modelled from the spec: `Board.get_legal_moves` for the active
competitor.  A competitor that has not moved yet may move to any blank cell;
this is the only case the engine under verification ever exercises (the
Position Sampler queries a board on which the active competitor is always
unplaced).  The move rules for an already-placed competitor are part of the
out-of-scope game rules and are unreachable from the engine. -/
def Board.get_legal_moves (b : Board P) : List Move :=
  match (if b.active_is_p1 then b.p1_loc else b.p2_loc) with
  | none => b.get_blank_spaces
  | some _ => []

/-- `random.choice(xs)`: one draw from the stream selects an element. -/
def random_choice (xs : List Move) (r : Rng) : Move × Rng :=
  let (k, r') := r.next
  (xs.getD (k % xs.length) (0, 0), r')

/-- `Agent = namedtuple("Agent", ["player", "name"])` from
`tournament_helpers.py`. -/
structure Agent (P : Type) where
  player : P
  name : String
deriving DecidableEq

/-- `get_random_starting_positions(height=7, width=7)` from
`tournament_helpers.py`: on a fresh board with placeholder players, twice
pick a random legal move and apply it; return the two moves. -/
def get_random_starting_positions (height width : Nat) (r : Rng) :
    List Move × Rng :=
  let b := Board.init "" "" width height
  let (m1, r1) := random_choice b.get_legal_moves r
  let b1 := b.apply_move m1
  let (m2, r2) := random_choice b1.get_legal_moves r1
  ([m1, m2], r2)

/-- The nested loop `for move in opening_moves: for board in boards:
board.apply_move(move)` of `prepare_fair_match`. -/
def apply_opening_to_boards (boards : List (Board P)) (opening_moves : List Move) :
    List (Board P) :=
  opening_moves.foldl (fun bs m => bs.map fun b => b.apply_move m) boards

/-- `prepare_fair_match(player1, player2, opening_moves=None, width=7,
height=7)` from `tournament_helpers.py`.  Two boards with the competitors'
roles swapped; the opening moves (regenerated when the caller passed `None`
or an empty list, Python truthiness) are applied identically to both. -/
def prepare_fair_match (player1 player2 : P) (opening_moves : Option (List Move))
    (width height : Nat) (r : Rng) : List (Board P) × List Move × Rng :=
  let boards := [Board.init player1 player2 width height,
                 Board.init player2 player1 width height]
  let gen :=
    match opening_moves with
    | none => get_random_starting_positions height width r
    | some ms => if ms.isEmpty then get_random_starting_positions height width r
                 else (ms, r)
  (apply_opening_to_boards boards gen.1, gen.1, gen.2)

/-- The list comprehension `[get_random_starting_positions() for _ in
range(num_matches)]` of `prepare_same_fair_matches`. -/
def gen_same_opening_moves : Nat → Rng → List (List Move) × Rng
  | 0, r => ([], r)
  | n + 1, r =>
    let (om, r1) := get_random_starting_positions 7 7 r
    let (rest, r2) := gen_same_opening_moves n r1
    (om :: rest, r2)

/-- The inner loop of `prepare_same_fair_matches`: starting from `games`,
extend with the two boards of `prepare_fair_match` for each opening pair. -/
def build_games (anchor opponent : P) (oms : List (List Move))
    (games : List (Board P)) (r : Rng) : List (Board P) × Rng :=
  match oms with
  | [] => (games, r)
  | om :: rest =>
    let (boards, _, r') := prepare_fair_match anchor opponent (some om) 7 7 r
    build_games anchor opponent rest (games ++ boards) r'

/-- The outer loop of `prepare_same_fair_matches`: one game sequence yielded
per opponent, all built from the same opening-move list. -/
def schedule_opponents (anchor : P) (oms : List (List Move)) :
    List (Agent P) → Rng → List (List (Board P)) × Rng
  | [], r => ([], r)
  | opp :: rest, r =>
    let (games, r1) := build_games anchor opp.player oms [] r
    let (seqs, r2) := schedule_opponents anchor oms rest r1
    (games :: seqs, r2)

/-- `prepare_same_fair_matches(agent, opponents, num_matches)` from
`tournament_helpers.py`: generate the shared opening-move list once, then
build one sequence of `2 * num_matches` boards per opponent from it. -/
def prepare_same_fair_matches (agent : Agent P) (opponents : List (Agent P))
    (num_matches : Nat) (r : Rng) : List (List (Board P)) × Rng :=
  let (same_opening_moves, r1) := gen_same_opening_moves num_matches r
  schedule_opponents agent.player same_opening_moves opponents r1

/-- `board.apply_move(move)` iterated over a list of moves, in order. -/
def Board.apply_all (b : Board P) (ms : List Move) : Board P :=
  ms.foldl Board.apply_move b

/-- Two boards carry the same unordered pair of competitor identities
(Python-set equality of `{active_player, inactive_player}`, as in the
repository's test `test_prepare_same_fair_matches`). -/
def same_player_set [DecidableEq P] (b b' : Board P) : Prop :=
  (b.active_player = b'.active_player ∧ b.inactive_player = b'.inactive_player) ∨
  (b.active_player = b'.inactive_player ∧ b.inactive_player = b'.active_player)

instance [DecidableEq P] (b b' : Board P) : Decidable (same_player_set b b') := by
  unfold same_player_set; infer_instance

/-- `collections.Counter`, as the source uses it: an insertion-ordered
association list from keys to counts. -/
abbrev Counter (P : Type) := List (P × Nat)

/-- Add `n` to the count stored for key `k` (inserting the key at the end
when absent), as `Counter` addition does. -/
def Counter.addCount [DecidableEq P] : Counter P → P → Nat → Counter P
  | [], k, n => [(k, n)]
  | kv :: rest, k, n =>
    if kv.1 = k then (kv.1, kv.2 + n) :: rest
    else kv :: Counter.addCount rest k n

/-- `counter[k] += 1`. -/
def Counter.incr [DecidableEq P] (c : Counter P) (k : P) : Counter P :=
  Counter.addCount c k 1

/-- `counter.update(other)`: pointwise addition of counts, new keys
appended in `other`'s order. -/
def Counter.update [DecidableEq P] (c other : Counter P) : Counter P :=
  other.foldl (fun acc kv => Counter.addCount acc kv.1 kv.2) c

/-- `del counter[k]`: `collections.Counter` deletion, which does not fail
on a missing key. -/
def Counter.del [DecidableEq P] (c : Counter P) (k : P) : Counter P :=
  c.filter fun kv => decide (kv.1 ≠ k)

/-- `counter[k]`, defaulting to `0` for a missing key. -/
def Counter.get [DecidableEq P] : Counter P → P → Nat
  | [], _ => 0
  | kv :: rest, k => if kv.1 = k then kv.2 else Counter.get rest k

/-- `sum(counter.values())`. -/
def Counter.sumValues (c : Counter P) : Nat :=
  (c.map Prod.snd).sum

/-- `k in counter`. -/
def Counter.containsKey [DecidableEq P] (c : Counter P) (k : P) : Bool :=
  c.any fun kv => decide (kv.1 = k)

/-- The keys of a counter are pairwise distinct (every counter the engine
builds satisfies this; it makes `List.length` the Python `len`). -/
def Counter.NodupKeys (c : Counter P) : Prop :=
  (c.map Prod.fst).Nodup

/-- Every count stored in the counter is at least one (true of every counter
the engine builds: keys are only ever created by recording a win). -/
def Counter.AllPos (c : Counter P) : Prop :=
  ∀ kv ∈ c, 1 ≤ kv.2

/-- The play-to-completion collaborator's contract (spec section 6): when a
game completes, the returned winner is one of the game's two registered
competitors. -/
def plays_registered (play : Board P → Except E (P × String)) : Prop :=
  ∀ g w l, play g = .ok (w, l) → w = g.player1 ∨ w = g.player2

/-- The inner loop of `play_fair_round`: play every board of one sequence,
tallying the winner and the loss reason of each game.  A collaborator
failure propagates immediately (there is no handler in the source). -/
def play_games (play : Board P → Except E (P × String)) [DecidableEq P] :
    List (Board P) → Counter P → Counter String →
    Except E (Counter P × Counter String)
  | [], win_counts, loss_reason_counts => .ok (win_counts, loss_reason_counts)
  | g :: rest, win_counts, loss_reason_counts =>
    match play g with
    | .error e => .error e
    | .ok (winner, loss_reason) =>
      play_games play rest (Counter.incr win_counts winner)
        (Counter.incr loss_reason_counts loss_reason)

/-- The outer loop of `play_fair_round`: play each opponent's sequence in
turn. -/
def play_seqs (play : Board P → Except E (P × String)) [DecidableEq P] :
    List (List (Board P)) → Counter P → Counter String →
    Except E (Counter P × Counter String)
  | [], win_counts, loss_reason_counts => .ok (win_counts, loss_reason_counts)
  | games :: rest, win_counts, loss_reason_counts =>
    match play_games play games win_counts loss_reason_counts with
    | .error e => .error e
    | .ok (w, l) => play_seqs play rest w l

/-- `play_fair_round(cpu_agent, test_agents, num_matches)` from
`tournament_fair.py`: schedule the shared fair matches, play them all, and
return the round's win and loss-reason counters.  (The source's closing
`assert sum(win_counts.values()) == 2 * num_matches * len(test_agents)` is
proved below to always hold, so it is not a reachable failure.) -/
def play_fair_round (play : Board P → Except E (P × String)) [DecidableEq P]
    (cpu_agent : Agent P) (test_agents : List (Agent P)) (num_matches : Nat)
    (r : Rng) : Except E (Counter P × Counter String × Rng) :=
  let (seqs, r') := prepare_same_fair_matches cpu_agent test_agents num_matches r
  match play_seqs play seqs [] [] with
  | .error e => .error e
  | .ok (win_counts, loss_reason_counts) => .ok (win_counts, loss_reason_counts, r')

/-- The round loop of `run_fair_tournament`: for each cpu agent play a fair
round, merge its loss reasons, delete the cpu agent's own win entry, and
merge the rest into the tournament-wide test-agent wins. -/
def run_rounds (play : Board P → Except E (P × String)) [DecidableEq P]
    (test_agents : List (Agent P)) (num_matches : Nat) :
    List (Agent P) → Counter P → Counter String → Rng →
    Except E (Counter P × Counter String × Rng)
  | [], all_test_agent_wins, all_loss_reasons, r =>
    .ok (all_test_agent_wins, all_loss_reasons, r)
  | cpu_agent :: rest, all_test_agent_wins, all_loss_reasons, r =>
    match play_fair_round play cpu_agent test_agents num_matches r with
    | .error e => .error e
    | .ok (win_counts, loss_reasons, r') =>
      run_rounds play test_agents num_matches rest
        (Counter.update all_test_agent_wins (Counter.del win_counts cpu_agent.player))
        (Counter.update all_loss_reasons loss_reasons) r'

/-- The raw per-round win counters of the tournament, in round order, with
the random stream threaded exactly as `run_rounds` threads it. -/
def round_wins (play : Board P → Except E (P × String)) [DecidableEq P]
    (test_agents : List (Agent P)) (num_matches : Nat) :
    List (Agent P) → Rng → List (Counter P)
  | [], _ => []
  | cpu_agent :: rest, r =>
    match play_fair_round play cpu_agent test_agents num_matches r with
    | .error _ => []
    | .ok (win_counts, _, r') =>
      win_counts :: round_wins play test_agents num_matches rest r'

/-- Every game the tournament schedules, in play order: each round's
sequences flattened, with the random stream threaded across rounds. -/
def tournament_schedule [DecidableEq P] (test_agents : List (Agent P))
    (num_matches : Nat) : List (Agent P) → Rng → List (Board P)
  | [], _ => []
  | cpu_agent :: rest, r =>
    let (seqs, r') := prepare_same_fair_matches cpu_agent test_agents num_matches r
    seqs.flatten ++ tournament_schedule test_agents num_matches rest r'

/-- The numeric content of `format_win_rates` from `tournament_helpers.py`:
the per-test-agent values `num_wins / total_num_games` that the template
renders (real-number division, embedded exactly as rationals). -/
def format_win_rates_values [DecidableEq P] (test_agents : List (Agent P))
    (all_test_agent_wins : Counter P) (total_num_games : Nat) : List ℚ :=
  test_agents.map fun agent =>
    (Counter.get all_test_agent_wins agent.player : ℚ) / (total_num_games : ℚ)

/-- How `run_fair_tournament` can abort: an uncaught collaborator failure,
or one of its own `assert` statements failing. -/
inductive TournamentError (E : Type) where
  | play (e : E)
  | assertionFailed
deriving DecidableEq

/-- What a completed `run_fair_tournament` produces: the tournament-wide
test-agent wins and loss reasons it returns, and the win-rate values it
reports via `format_win_rates`. -/
structure TournamentResult (P : Type) where
  wins : Counter P
  loss_reasons : Counter String
  rates : List ℚ
deriving DecidableEq

/-- `run_fair_tournament(cpu_agents, test_agents, num_matches)` from
`tournament_fair.py`: play every round, then check the two closing
`assert` statements and report win rates over
`total_num_games_per_test_agent = 2 * num_matches * len(cpu_agents)`. -/
def run_fair_tournament (play : Board P → Except E (P × String)) [DecidableEq P]
    (cpu_agents test_agents : List (Agent P)) (num_matches : Nat) (r : Rng) :
    Except (TournamentError E) (TournamentResult P) :=
  match run_rounds play test_agents num_matches cpu_agents [] [] r with
  | .error e => .error (.play e)
  | .ok (all_test_agent_wins, all_loss_reasons, _) =>
    let total_num_games_per_test_agent := 2 * num_matches * cpu_agents.length
    if all_test_agent_wins.length = test_agents.length then
      if Counter.sumValues all_test_agent_wins ≤
          total_num_games_per_test_agent * test_agents.length then
        .ok ⟨all_test_agent_wins, all_loss_reasons,
          format_win_rates_values test_agents all_test_agent_wins
            total_num_games_per_test_agent⟩
      else .error .assertionFailed
    else .error .assertionFailed

/-- The `i`-th GameInstance of the `m`-th opponent's sequence produced by
`prepare_same_fair_matches` (a harmless placeholder board out of range). -/
def scheduled_game (agent : Agent P) (opponents : List (Agent P))
    (num_matches : Nat) (r : Rng) (m i : Nat) : Board P :=
  ((((prepare_same_fair_matches agent opponents num_matches r).1[m]?).getD [])[i]?).getD
    (Board.init agent.player agent.player 7 7)

/-! ### Board lemmas -/

theorem apply_all_nil (b : Board P) : b.apply_all [] = b := rfl

theorem apply_all_cons (b : Board P) (m : Move) (ms : List Move) :
    b.apply_all (m :: ms) = (b.apply_move m).apply_all ms := rfl

theorem occupied_apply_all (b : Board P) (ms : List Move) :
    (b.apply_all ms).occupied = b.occupied ++ ms := by
  induction ms generalizing b with
  | nil => simp [Board.apply_all]
  | cons m ms ih => simp [apply_all_cons, ih, Board.apply_move]

theorem width_apply_all (b : Board P) (ms : List Move) :
    (b.apply_all ms).width = b.width := by
  induction ms generalizing b with
  | nil => rfl
  | cons m ms ih => rw [apply_all_cons, ih]; rfl

theorem height_apply_all (b : Board P) (ms : List Move) :
    (b.apply_all ms).height = b.height := by
  induction ms generalizing b with
  | nil => rfl
  | cons m ms ih => rw [apply_all_cons, ih]; rfl

theorem player1_apply_all (b : Board P) (ms : List Move) :
    (b.apply_all ms).player1 = b.player1 := by
  induction ms generalizing b with
  | nil => rfl
  | cons m ms ih => rw [apply_all_cons, ih]; rfl

theorem player2_apply_all (b : Board P) (ms : List Move) :
    (b.apply_all ms).player2 = b.player2 := by
  induction ms generalizing b with
  | nil => rfl
  | cons m ms ih => rw [apply_all_cons, ih]; rfl

theorem active_is_p1_apply_two (b : Board P) (m1 m2 : Move) :
    (b.apply_all [m1, m2]).active_is_p1 = b.active_is_p1 := by
  simp [Board.apply_all, Board.apply_move]

theorem get_blank_spaces_congr (b b' : Board P') (hw : b.width = b'.width)
    (hh : b.height = b'.height) (ho : b.occupied = b'.occupied) :
    b.get_blank_spaces = b'.get_blank_spaces := by
  rw [Board.get_blank_spaces, Board.get_blank_spaces, hw, hh, ho]

/-! ### `prepare_fair_match` normalization -/

theorem apply_opening_to_boards_map (bs : List (Board P)) (ms : List Move) :
    apply_opening_to_boards bs ms = bs.map fun b => b.apply_all ms := by
  induction ms generalizing bs with
  | nil => simp [apply_opening_to_boards, Board.apply_all]
  | cons m ms ih =>
    rw [show apply_opening_to_boards bs (m :: ms) =
      apply_opening_to_boards (bs.map fun b => b.apply_move m) ms from rfl,
      ih, List.map_map]
    rfl

theorem prepare_fair_match_some (p q : P) (ms : List Move) (hms : ms ≠ [])
    (w h : Nat) (r : Rng) :
    prepare_fair_match p q (some ms) w h r =
      ([(Board.init p q w h).apply_all ms, (Board.init q p w h).apply_all ms],
        ms, r) := by
  have hempty : ms.isEmpty = false := by
    simpa [List.isEmpty_iff] using hms
  simp [prepare_fair_match, hempty, apply_opening_to_boards_map]

/-- C2: for any two competitors and any OpeningMovePair, `prepare_fair_match`
produces exactly two GameInstances whose occupied-cell footprints are equal
after the openings are applied, and whose (first-mover, second-mover)
registrations are exact swaps: board 0's first mover is competitor `A` and
equals board 1's second mover, and vice versa. -/
theorem fair_match_footprint_and_swap {P : Type} (A B : P) (om : List Move)
    (hom : om.length = 2) (w h : Nat) (r : Rng) :
    ∃ b0 b1 : Board P, (prepare_fair_match A B (some om) w h r).1 = [b0, b1] ∧
      b0.get_blank_spaces = b1.get_blank_spaces ∧
      b0.player1 = A ∧ b0.player2 = B ∧ b1.player1 = B ∧ b1.player2 = A ∧
      b0.active_player = A ∧ b1.active_player = B ∧
      b0.active_player = b1.inactive_player ∧
      b0.inactive_player = b1.active_player := by
  obtain ⟨m1, m2, rfl⟩ := List.length_eq_two.mp hom
  have hms : ([m1, m2] : List Move) ≠ [] := by simp
  refine ⟨_, _, by rw [prepare_fair_match_some A B _ hms], ?_, ?_, ?_, ?_, ?_, ?_, ?_, ?_, ?_⟩ <;>
    simp [Board.apply_all, Board.apply_move, Board.init, Board.get_blank_spaces,
      Board.active_player, Board.inactive_player]

/-- Witness for C2 at competitors `0, 1`, opening `[(0,0),(1,1)]`, a 7 by 7
board and a constant random stream. -/
theorem fair_match_footprint_and_swap_witness :
    ([((0 : Nat), (0 : Nat)), (1, 1)] : List Move).length = 2 ∧
    (∃ b0 b1 : Board Nat,
      (prepare_fair_match 0 1 (some [(0, 0), (1, 1)]) 7 7 ⟨fun _ => 0, 0⟩).1 = [b0, b1] ∧
      b0.get_blank_spaces = b1.get_blank_spaces ∧
      b0.player1 = 0 ∧ b0.player2 = 1 ∧ b1.player1 = 1 ∧ b1.player2 = 0 ∧
      b0.active_player = 0 ∧ b1.active_player = 1 ∧
      b0.active_player = b1.inactive_player ∧
      b0.inactive_player = b1.active_player) :=
  ⟨by decide, fair_match_footprint_and_swap 0 1 [(0, 0), (1, 1)] (by decide) 7 7 ⟨fun _ => 0, 0⟩⟩

/-! ### Scheduler structure lemmas -/

theorem get_random_starting_positions_length (height width : Nat) (r : Rng) :
    (get_random_starting_positions height width r).1.length = 2 := rfl

theorem gen_same_opening_moves_succ (n : Nat) (r : Rng) :
    gen_same_opening_moves (n + 1) r =
      ((get_random_starting_positions 7 7 r).1 ::
        (gen_same_opening_moves n (get_random_starting_positions 7 7 r).2).1,
       (gen_same_opening_moves n (get_random_starting_positions 7 7 r).2).2) := rfl

theorem gen_same_opening_moves_length (n : Nat) (r : Rng) :
    (gen_same_opening_moves n r).1.length = n := by
  induction n generalizing r with
  | zero => rfl
  | succ n ih => rw [gen_same_opening_moves_succ]; simp [ih]

theorem gen_same_opening_moves_shape (n : Nat) (r : Rng) :
    ∀ om ∈ (gen_same_opening_moves n r).1, om.length = 2 := by
  induction n generalizing r with
  | zero => intro om hom; simp [gen_same_opening_moves] at hom
  | succ n ih =>
    intro om hom
    rw [gen_same_opening_moves_succ] at hom
    rcases List.mem_cons.mp hom with h | h
    · rw [h]; exact get_random_starting_positions_length 7 7 r
    · exact ih _ om h

theorem gen_same_opening_moves_ne_nil (n : Nat) (r : Rng) :
    ∀ om ∈ (gen_same_opening_moves n r).1, om ≠ [] := by
  intro om hom hnil
  have := gen_same_opening_moves_shape n r om hom
  rw [hnil] at this
  simp at this

theorem build_games_eq (a p : P) (oms : List (List Move))
    (h : ∀ om ∈ oms, om ≠ []) (gs : List (Board P)) (r : Rng) :
    build_games a p oms gs r =
      (gs ++ oms.flatMap fun om =>
        [(Board.init a p 7 7).apply_all om, (Board.init p a 7 7).apply_all om],
       r) := by
  induction oms generalizing gs with
  | nil => simp [build_games]
  | cons om rest ih =>
    have hom : om ≠ [] := h om (List.mem_cons_self om rest)
    rw [show build_games a p (om :: rest) gs r =
      build_games a p rest (gs ++ (prepare_fair_match a p (some om) 7 7 r).1)
        (prepare_fair_match a p (some om) 7 7 r).2.2 from rfl,
      prepare_fair_match_some a p om hom,
      ih (fun x hx => h x (List.mem_cons_of_mem _ hx))]
    simp

theorem schedule_opponents_eq (a : P) (oms : List (List Move))
    (h : ∀ om ∈ oms, om ≠ []) (opps : List (Agent P)) (r : Rng) :
    schedule_opponents a oms opps r =
      (opps.map fun o => oms.flatMap fun om =>
        [(Board.init a o.player 7 7).apply_all om,
         (Board.init o.player a 7 7).apply_all om],
       r) := by
  induction opps generalizing r with
  | nil => rfl
  | cons o rest ih =>
    rw [show schedule_opponents a oms (o :: rest) r =
      ((build_games a o.player oms [] r).1 ::
        (schedule_opponents a oms rest (build_games a o.player oms [] r).2).1,
       (schedule_opponents a oms rest (build_games a o.player oms [] r).2).2) from rfl,
      build_games_eq a o.player oms h [] r]
    simp [ih]

theorem prepare_same_fair_matches_eq (agent : Agent P) (opps : List (Agent P))
    (n : Nat) (r : Rng) :
    prepare_same_fair_matches agent opps n r =
      (opps.map fun o => (gen_same_opening_moves n r).1.flatMap fun om =>
        [(Board.init agent.player o.player 7 7).apply_all om,
         (Board.init o.player agent.player 7 7).apply_all om],
       (gen_same_opening_moves n r).2) := by
  rw [show prepare_same_fair_matches agent opps n r =
    schedule_opponents agent.player (gen_same_opening_moves n r).1 opps
      (gen_same_opening_moves n r).2 from rfl,
    schedule_opponents_eq agent.player _ (gen_same_opening_moves_ne_nil n r) opps _]

theorem flatMap_pair_length {α β : Type} (f g : α → β) (l : List α) :
    (l.flatMap fun x => [f x, g x]).length = 2 * l.length := by
  induction l with
  | nil => simp
  | cons x xs ih => simp [List.flatMap_cons, ih]; ring

theorem flatMap_pair_getElem_even {α β : Type} (f g : α → β) (l : List α) (j : Nat) :
    (l.flatMap fun x => [f x, g x])[2 * j]? = l[j]?.map f := by
  induction l generalizing j with
  | nil => simp
  | cons x xs ih =>
    cases j with
    | zero => simp [List.flatMap_cons]
    | succ j =>
      have h2 : 2 * (j + 1) = 2 * j + 1 + 1 := by ring
      rw [h2]
      simp [List.flatMap_cons, List.getElem?_cons_succ, ih]

theorem flatMap_pair_getElem_odd {α β : Type} (f g : α → β) (l : List α) (j : Nat) :
    (l.flatMap fun x => [f x, g x])[2 * j + 1]? = l[j]?.map g := by
  induction l generalizing j with
  | nil => simp
  | cons x xs ih =>
    cases j with
    | zero => simp [List.flatMap_cons]
    | succ j =>
      have h2 : 2 * (j + 1) + 1 = 2 * j + 1 + 1 + 1 := by ring
      rw [h2]
      simp [List.flatMap_cons, List.getElem?_cons_succ, ih]

theorem dedup_length_le_of_subset {α : Type} [DecidableEq α] {l l' : List α}
    (h : ∀ x ∈ l, x ∈ l') : l.dedup.length ≤ l'.length :=
  calc l.dedup.length = l.toFinset.card := (List.card_toFinset l).symm
    _ ≤ l'.toFinset.card := Finset.card_le_card fun x hx => by
        rw [List.mem_toFinset] at hx ⊢; exact h x hx
    _ = l'.dedup.length := List.card_toFinset l'
    _ ≤ l'.length := (List.dedup_sublist l').length_le

theorem occupied_mem_of_scheduled (agent : Agent P) (opps : List (Agent P))
    (n : Nat) (r : Rng) :
    ∀ occ ∈ (prepare_same_fair_matches agent opps n r).1.flatten.map Board.occupied,
      occ ∈ (gen_same_opening_moves n r).1 := by
  intro occ hocc
  rw [prepare_same_fair_matches_eq] at hocc
  obtain ⟨b, hbmem, rfl⟩ := List.mem_map.mp hocc
  obtain ⟨s, hsmem, hbs⟩ := List.mem_flatten.mp hbmem
  obtain ⟨o, _, rfl⟩ := List.mem_map.mp hsmem
  obtain ⟨om, hom, hb2⟩ := List.mem_flatMap.mp hbs
  have : b.occupied = om := by
    rcases List.mem_pair.mp hb2 with rfl | rfl <;>
      rw [occupied_apply_all] <;> simp [Board.init]
  rw [this]; exact hom

/-- C3: the round's OpeningMovePairs are generated exactly once, before the
opponents are iterated: the random stream the scheduler returns is exactly
the stream left after generating `num_matches` opening pairs, whatever the
opponent list is (no per-opponent regeneration); consequently the
occupied-cell footprints of all scheduled games across all opponents take at
most `num_matches` distinct values. -/
theorem opening_pairs_generated_once_per_round {P : Type} [DecidableEq P]
    (agent : Agent P) (opps : List (Agent P)) (n : Nat) (r : Rng) :
    (prepare_same_fair_matches agent opps n r).2 = (gen_same_opening_moves n r).2 ∧
    ((prepare_same_fair_matches agent opps n r).1.flatten.map Board.occupied).dedup.length ≤ n := by
  constructor
  · rw [prepare_same_fair_matches_eq]
  · calc ((prepare_same_fair_matches agent opps n r).1.flatten.map Board.occupied).dedup.length
        ≤ (gen_same_opening_moves n r).1.length :=
          dedup_length_le_of_subset (occupied_mem_of_scheduled agent opps n r)
      _ = n := gen_same_opening_moves_length n r

/-- The `i`-th game of the `m`-th sequence, in closed form: the board whose
first mover is the anchor when `i` is even and the `m`-th opponent when `i`
is odd, with the `i / 2`-th shared opening pair applied. -/
theorem scheduled_game_eq {P : Type} (agent : Agent P) (opps : List (Agent P))
    (n : Nat) (r : Rng) (m i : Nat) (hm : m < opps.length) (hi : i < 2 * n) :
    scheduled_game agent opps n r m i =
      (if i % 2 = 0 then Board.init agent.player opps[m].player 7 7
       else Board.init opps[m].player agent.player 7 7).apply_all
        ((gen_same_opening_moves n r).1[i / 2]?.getD []) := by
  have hseq : (prepare_same_fair_matches agent opps n r).1[m]? =
      some ((gen_same_opening_moves n r).1.flatMap fun om =>
        [(Board.init agent.player opps[m].player 7 7).apply_all om,
         (Board.init opps[m].player agent.player 7 7).apply_all om]) := by
    rw [prepare_same_fair_matches_eq]
    simp [List.getElem?_eq_getElem (by simpa using hm : m < (opps.map _).length)]
  have hj : i / 2 < (gen_same_opening_moves n r).1.length := by
    rw [gen_same_opening_moves_length]; omega
  rcases Nat.mod_two_eq_zero_or_one i with he | ho
  · obtain ⟨j, rfl⟩ : ∃ j, i = 2 * j := ⟨i / 2, by omega⟩
    have hdiv : 2 * j / 2 = j := by omega
    rw [scheduled_game, hseq, Option.getD_some, flatMap_pair_getElem_even, hdiv,
      List.getElem?_eq_getElem (hdiv ▸ hj)]
    simp
  · obtain ⟨j, rfl⟩ : ∃ j, i = 2 * j + 1 := ⟨i / 2, by omega⟩
    have hdiv : (2 * j + 1) / 2 = j := by omega
    rw [scheduled_game, hseq, Option.getD_some, flatMap_pair_getElem_odd, hdiv,
      List.getElem?_eq_getElem (hdiv ▸ hj)]
    have hne : ¬((2 * j + 1) % 2 = 0) := by omega
    rw [if_neg hne]
    simp

theorem active_player_apply_two (b : Board P) (m1 m2 : Move) :
    (b.apply_all [m1, m2]).active_player = b.active_player := by
  rw [Board.active_player, Board.active_player, active_is_p1_apply_two,
    player1_apply_all, player2_apply_all]

theorem inactive_player_apply_two (b : Board P) (m1 m2 : Move) :
    (b.apply_all [m1, m2]).inactive_player = b.inactive_player := by
  rw [Board.inactive_player, Board.inactive_player, active_is_p1_apply_two,
    player1_apply_all, player2_apply_all]

theorem blanks_apply_all_init (a b c d : P) (w h : Nat) (om : List Move) :
    ((Board.init a b w h).apply_all om).get_blank_spaces =
      ((Board.init c d w h).apply_all om).get_blank_spaces := by
  apply get_blank_spaces_congr <;>
    simp [width_apply_all, height_apply_all, occupied_apply_all, Board.init]

theorem scheduled_opening_shape (n : Nat) (r : Rng) (j : Nat) (hj : j < n) :
    ∃ x y : Move, (gen_same_opening_moves n r).1[j]?.getD [] = [x, y] := by
  have hjl : j < (gen_same_opening_moves n r).1.length := by
    rw [gen_same_opening_moves_length]; exact hj
  rw [List.getElem?_eq_getElem hjl, Option.getD_some]
  exact List.length_eq_two.mp
    (gen_same_opening_moves_shape n r _ (List.getElem_mem hjl))

/-- C10: within each opponent's sequence, the games at indices `2j` and
`2j + 1` are the fair-match pair built from the `j`-th shared
OpeningMovePair, with the anchor registered first mover (and to move) in the
even game and the opponent registered first mover in the odd game. -/
theorem sequence_pairs_follow_shared_openings {P : Type} (agent : Agent P)
    (opps : List (Agent P)) (n : Nat) (r : Rng) (m j : Nat)
    (hm : m < opps.length) (hj : j < n) :
    scheduled_game agent opps n r m (2 * j) =
      (Board.init agent.player opps[m].player 7 7).apply_all
        ((gen_same_opening_moves n r).1[j]?.getD []) ∧
    scheduled_game agent opps n r m (2 * j + 1) =
      (Board.init opps[m].player agent.player 7 7).apply_all
        ((gen_same_opening_moves n r).1[j]?.getD []) ∧
    (scheduled_game agent opps n r m (2 * j)).active_player = agent.player ∧
    (scheduled_game agent opps n r m (2 * j + 1)).active_player =
      opps[m].player := by
  have hjl : j < (gen_same_opening_moves n r).1.length := by
    rw [gen_same_opening_moves_length]; exact hj
  have heven : scheduled_game agent opps n r m (2 * j) =
      (Board.init agent.player opps[m].player 7 7).apply_all
        ((gen_same_opening_moves n r).1[j]?.getD []) := by
    rw [scheduled_game_eq agent opps n r m (2 * j) hm (by omega)]
    have hdiv : 2 * j / 2 = j := by omega
    have hpar : 2 * j % 2 = 0 := by omega
    rw [hdiv, if_pos hpar]
  have hodd : scheduled_game agent opps n r m (2 * j + 1) =
      (Board.init opps[m].player agent.player 7 7).apply_all
        ((gen_same_opening_moves n r).1[j]?.getD []) := by
    rw [scheduled_game_eq agent opps n r m (2 * j + 1) hm (by omega)]
    have hdiv : (2 * j + 1) / 2 = j := by omega
    have hpar : ¬((2 * j + 1) % 2 = 0) := by omega
    rw [hdiv, if_neg hpar]
  obtain ⟨x, y, hxy⟩ := scheduled_opening_shape n r j hj
  refine ⟨heven, hodd, ?_, ?_⟩
  · rw [heven, hxy, active_player_apply_two]; rfl
  · rw [hodd, hxy, active_player_apply_two]; rfl

/-- Witness for C10: anchor `5`, opponents `0` and `1`, one match, a
constant random stream, second opponent, opening index `0`. -/
theorem sequence_pairs_follow_shared_openings_witness :
    (1 < ([⟨0, "a"⟩, ⟨1, "b"⟩] : List (Agent Nat)).length ∧ 0 < 1) ∧
    (scheduled_game (⟨5, "c"⟩ : Agent Nat) [⟨0, "a"⟩, ⟨1, "b"⟩] 1 ⟨fun _ => 0, 0⟩ 1 (2 * 0) =
      (Board.init (5 : Nat) 1 7 7).apply_all
        ((gen_same_opening_moves 1 ⟨fun _ => 0, 0⟩).1[0]?.getD []) ∧
    scheduled_game (⟨5, "c"⟩ : Agent Nat) [⟨0, "a"⟩, ⟨1, "b"⟩] 1 ⟨fun _ => 0, 0⟩ 1 (2 * 0 + 1) =
      (Board.init (1 : Nat) 5 7 7).apply_all
        ((gen_same_opening_moves 1 ⟨fun _ => 0, 0⟩).1[0]?.getD []) ∧
    (scheduled_game (⟨5, "c"⟩ : Agent Nat) [⟨0, "a"⟩, ⟨1, "b"⟩] 1 ⟨fun _ => 0, 0⟩ 1 (2 * 0)).active_player = 5 ∧
    (scheduled_game (⟨5, "c"⟩ : Agent Nat) [⟨0, "a"⟩, ⟨1, "b"⟩] 1 ⟨fun _ => 0, 0⟩ 1 (2 * 0 + 1)).active_player = 1) :=
  ⟨⟨by decide, by decide⟩,
   sequence_pairs_follow_shared_openings ⟨5, "c"⟩ [⟨0, "a"⟩, ⟨1, "b"⟩] 1
     ⟨fun _ => 0, 0⟩ 1 0 (by decide) (by decide)⟩

/-- C1 (amended): for every anchor, every list of opponents whose player
identities are pairwise distinct, and every match count, the scheduler
yields exactly `k` sequences of length exactly `2 * num_matches`; at every
index the instances across sequences share an identical occupied-cell
footprint (equal blank spaces), and no two sequences' instances at the same
index carry the same unordered pair of competitor identities. -/
theorem shared_round_fairness_for_distinct_opponents {P : Type} [DecidableEq P]
    (agent : Agent P) (opps : List (Agent P)) (n : Nat) (r : Rng)
    (hdist : (opps.map Agent.player).Nodup) :
    (prepare_same_fair_matches agent opps n r).1.length = opps.length ∧
    (∀ s ∈ (prepare_same_fair_matches agent opps n r).1, s.length = 2 * n) ∧
    (∀ m m' i : Nat, m < opps.length → m' < opps.length → i < 2 * n →
      (scheduled_game agent opps n r m i).get_blank_spaces =
        (scheduled_game agent opps n r m' i).get_blank_spaces) ∧
    (∀ m m' i : Nat, m < opps.length → m' < opps.length → i < 2 * n → m ≠ m' →
      ¬ same_player_set (scheduled_game agent opps n r m i)
        (scheduled_game agent opps n r m' i)) := by
  refine ⟨?_, ?_, ?_, ?_⟩
  · rw [prepare_same_fair_matches_eq]; simp
  · intro s hs
    rw [prepare_same_fair_matches_eq] at hs
    obtain ⟨o, _, rfl⟩ := List.mem_map.mp hs
    rw [flatMap_pair_length, gen_same_opening_moves_length]
  · intro m m' i hm hm' hi
    rw [scheduled_game_eq agent opps n r m i hm hi,
      scheduled_game_eq agent opps n r m' i hm' hi]
    by_cases hpar : i % 2 = 0
    · rw [if_pos hpar, if_pos hpar]; exact blanks_apply_all_init _ _ _ _ _ _ _
    · rw [if_neg hpar, if_neg hpar]; exact blanks_apply_all_init _ _ _ _ _ _ _
  · intro m m' i hm hm' hi hne
    have hpl : opps[m].player ≠ opps[m'].player := by
      intro hEq
      apply hne
      have hmm : m < (opps.map Agent.player).length := by simpa using hm
      have hmm' : m' < (opps.map Agent.player).length := by simpa using hm'
      have h1 : (opps.map Agent.player)[m] = (opps.map Agent.player)[m'] := by
        rw [List.getElem_map, List.getElem_map]; exact hEq
      exact (List.Nodup.getElem_inj_iff hdist).mp h1
    obtain ⟨x, y, hxy⟩ := scheduled_opening_shape n r (i / 2) (by omega)
    rw [scheduled_game_eq agent opps n r m i hm hi,
      scheduled_game_eq agent opps n r m' i hm' hi]
    by_cases hpar : i % 2 = 0
    · rw [if_pos hpar, if_pos hpar]
      rintro (⟨h1, h2⟩ | ⟨h1, h2⟩) <;>
        simp only [hxy, active_player_apply_two, inactive_player_apply_two,
          Board.active_player, Board.inactive_player, Board.init,
          if_true, Bool.ite_eq_true_distrib] at h1 h2
      · exact hpl h2
      · exact hpl (h2.trans h1)
    · rw [if_neg hpar, if_neg hpar]
      rintro (⟨h1, h2⟩ | ⟨h1, h2⟩) <;>
        simp only [hxy, active_player_apply_two, inactive_player_apply_two,
          Board.active_player, Board.inactive_player, Board.init,
          if_true, Bool.ite_eq_true_distrib] at h1 h2
      · exact hpl h1
      · exact hpl (h1.trans h2)

/-- C1 counterexample: the claim quantifies over every list of opponents,
but with two opponent agents wrapping the same player object the two
sequences' first instances carry the same unordered pair of competitor
identities, even though the sequence count, the sequence lengths and the
footprint equality still hold. -/
theorem shared_round_duplicate_opponents_counterexample :
    same_player_set
      (scheduled_game (⟨1, "cpu"⟩ : Agent Nat) [⟨0, "A"⟩, ⟨0, "A"⟩] 1 ⟨fun _ => 0, 0⟩ 0 0)
      (scheduled_game (⟨1, "cpu"⟩ : Agent Nat) [⟨0, "A"⟩, ⟨0, "A"⟩] 1 ⟨fun _ => 0, 0⟩ 1 0) := by
  decide

/-- Witness for the amended C1 at anchor `5`, distinct opponents `0, 1`,
one match and a constant random stream. -/
theorem shared_round_fairness_witness :
    (([⟨0, "a"⟩, ⟨1, "b"⟩] : List (Agent Nat)).map Agent.player).Nodup ∧
    ((prepare_same_fair_matches (⟨5, "c"⟩ : Agent Nat) [⟨0, "a"⟩, ⟨1, "b"⟩] 1 ⟨fun _ => 0, 0⟩).1.length = 2 ∧
    (∀ s ∈ (prepare_same_fair_matches (⟨5, "c"⟩ : Agent Nat) [⟨0, "a"⟩, ⟨1, "b"⟩] 1 ⟨fun _ => 0, 0⟩).1, s.length = 2 * 1) ∧
    (∀ m m' i : Nat, m < ([⟨0, "a"⟩, ⟨1, "b"⟩] : List (Agent Nat)).length →
      m' < ([⟨0, "a"⟩, ⟨1, "b"⟩] : List (Agent Nat)).length → i < 2 * 1 →
      (scheduled_game (⟨5, "c"⟩ : Agent Nat) [⟨0, "a"⟩, ⟨1, "b"⟩] 1 ⟨fun _ => 0, 0⟩ m i).get_blank_spaces =
        (scheduled_game (⟨5, "c"⟩ : Agent Nat) [⟨0, "a"⟩, ⟨1, "b"⟩] 1 ⟨fun _ => 0, 0⟩ m' i).get_blank_spaces) ∧
    (∀ m m' i : Nat, m < ([⟨0, "a"⟩, ⟨1, "b"⟩] : List (Agent Nat)).length →
      m' < ([⟨0, "a"⟩, ⟨1, "b"⟩] : List (Agent Nat)).length → i < 2 * 1 → m ≠ m' →
      ¬ same_player_set
        (scheduled_game (⟨5, "c"⟩ : Agent Nat) [⟨0, "a"⟩, ⟨1, "b"⟩] 1 ⟨fun _ => 0, 0⟩ m i)
        (scheduled_game (⟨5, "c"⟩ : Agent Nat) [⟨0, "a"⟩, ⟨1, "b"⟩] 1 ⟨fun _ => 0, 0⟩ m' i))) := by
  constructor
  · decide
  · have h := shared_round_fairness_for_distinct_opponents (⟨5, "c"⟩ : Agent Nat)
      [⟨0, "a"⟩, ⟨1, "b"⟩] 1 ⟨fun _ => 0, 0⟩ (by decide)
    simpa using h

/-- C5: when the caller supplies an OpeningMovePair (a two-move list),
`prepare_fair_match` returns exactly that pair and consumes nothing from the
random stream (the Position Sampler is not invoked); when the opening is
omitted, the returned pair and stream are exactly the Position Sampler's
output. -/
theorem supplied_opening_not_regenerated {P : Type} (A B : P) (om : List Move)
    (hom : om.length = 2) (w h : Nat) (r : Rng) :
    (prepare_fair_match A B (some om) w h r).2.1 = om ∧
    (prepare_fair_match A B (some om) w h r).2.2 = r ∧
    (prepare_fair_match A B none w h r).2 =
      get_random_starting_positions h w r := by
  have hne : om ≠ [] := by intro hnil; rw [hnil] at hom; simp at hom
  rw [prepare_fair_match_some A B om hne w h r]
  exact ⟨rfl, rfl, rfl⟩

/-- Witness for C5 at competitors `0, 1` and opening `[(0,0),(1,1)]`. -/
theorem supplied_opening_not_regenerated_witness :
    ([((0 : Nat), (0 : Nat)), (1, 1)] : List Move).length = 2 ∧
    ((prepare_fair_match (0 : Nat) 1 (some [(0, 0), (1, 1)]) 7 7 ⟨fun _ => 0, 0⟩).2.1 = [(0, 0), (1, 1)] ∧
    (prepare_fair_match (0 : Nat) 1 (some [(0, 0), (1, 1)]) 7 7 ⟨fun _ => 0, 0⟩).2.2 = ⟨fun _ => 0, 0⟩ ∧
    (prepare_fair_match (0 : Nat) 1 none 7 7 ⟨fun _ => 0, 0⟩).2 =
      get_random_starting_positions 7 7 ⟨fun _ => 0, 0⟩) :=
  ⟨by decide,
   supplied_opening_not_regenerated 0 1 [(0, 0), (1, 1)] (by decide) 7 7 ⟨fun _ => 0, 0⟩⟩

/-! ### Counter lemmas -/

theorem Counter.get_addCount [DecidableEq P] (c : Counter P) (k p : P) (n : Nat) :
    Counter.get (Counter.addCount c k n) p =
      Counter.get c p + if k = p then n else 0 := by
  induction c with
  | nil =>
    simp only [Counter.addCount, Counter.get]
    by_cases h : k = p
    · rw [if_pos h]; omega
    · rw [if_neg h]
  | cons kv rest ih =>
    simp only [Counter.addCount]
    by_cases h1 : kv.1 = k
    · rw [if_pos h1]
      simp only [Counter.get]
      by_cases h2 : kv.1 = p
      · rw [if_pos h2, if_pos h2, if_pos (h1 ▸ h2 : k = p)]
      · rw [if_neg h2, if_neg h2,
          if_neg (fun hkp => h2 (h1.symm ▸ hkp : kv.1 = p))]
        omega
    · rw [if_neg h1]
      simp only [Counter.get]
      by_cases h2 : kv.1 = p
      · rw [if_pos h2, if_pos h2,
          if_neg (fun hkp => h1 ((h2.trans hkp.symm : kv.1 = k)))]
        omega
      · rw [if_neg h2, if_neg h2, ih]

theorem Counter.get_incr_self [DecidableEq P] (c : Counter P) (k : P) :
    Counter.get (Counter.incr c k) k = Counter.get c k + 1 := by
  rw [Counter.incr, Counter.get_addCount]; simp

theorem Counter.get_incr_ne [DecidableEq P] (c : Counter P) (k p : P)
    (h : k ≠ p) : Counter.get (Counter.incr c k) p = Counter.get c p := by
  rw [Counter.incr, Counter.get_addCount, if_neg h]
  omega

theorem Counter.sumValues_addCount [DecidableEq P] (c : Counter P) (k : P) (n : Nat) :
    Counter.sumValues (Counter.addCount c k n) = Counter.sumValues c + n := by
  induction c with
  | nil => simp [Counter.addCount, Counter.sumValues]
  | cons kv rest ih =>
    by_cases h : kv.1 = k <;>
      simp [Counter.addCount, Counter.sumValues, h] at ih ⊢ <;> omega

theorem Counter.sumValues_incr [DecidableEq P] (c : Counter P) (k : P) :
    Counter.sumValues (Counter.incr c k) = Counter.sumValues c + 1 :=
  Counter.sumValues_addCount c k 1

theorem Counter.containsKey_addCount [DecidableEq P] (c : Counter P) (k p : P) (n : Nat) :
    Counter.containsKey (Counter.addCount c k n) p =
      (Counter.containsKey c p || decide (k = p)) := by
  induction c with
  | nil => simp [Counter.addCount, Counter.containsKey]
  | cons kv rest ih =>
    simp only [Counter.addCount]
    by_cases h : kv.1 = k
    · rw [if_pos h]
      simp only [Counter.containsKey, List.any_cons, h]
      cases hkp : decide (k = p) <;> simp [hkp]
    · rw [if_neg h]
      simp only [Counter.containsKey, List.any_cons] at ih ⊢
      rw [ih, Bool.or_assoc]

theorem Counter.containsKey_incr [DecidableEq P] (c : Counter P) (k p : P) :
    Counter.containsKey (Counter.incr c k) p =
      (Counter.containsKey c p || decide (k = p)) :=
  Counter.containsKey_addCount c k p 1

theorem Counter.get_eq_zero_of_not_containsKey [DecidableEq P] (c : Counter P)
    (p : P) (h : Counter.containsKey c p = false) : Counter.get c p = 0 := by
  induction c with
  | nil => rfl
  | cons kv rest ih =>
    simp [Counter.containsKey] at h
    simp [Counter.get, h.1, ih (by simpa [Counter.containsKey] using h.2)]

theorem Counter.containsKey_iff_mem_keys [DecidableEq P] (c : Counter P) (p : P) :
    Counter.containsKey c p = true ↔ p ∈ c.map Prod.fst := by
  induction c with
  | nil => simp [Counter.containsKey]
  | cons kv rest ih =>
    simp only [Counter.containsKey, List.any_cons, Bool.or_eq_true,
      decide_eq_true_eq, List.map_cons, List.mem_cons] at ih ⊢
    rw [ih, eq_comm]

theorem Counter.get_update [DecidableEq P] (c d : Counter P)
    (hd : Counter.NodupKeys d) (p : P) :
    Counter.get (Counter.update c d) p = Counter.get c p + Counter.get d p := by
  induction d generalizing c with
  | nil => simp [Counter.update, Counter.get]
  | cons kv rest ih =>
    have hd' := hd
    rw [Counter.NodupKeys, List.map_cons, List.nodup_cons] at hd'
    rw [show Counter.update c (kv :: rest) =
      Counter.update (Counter.addCount c kv.1 kv.2) rest from rfl,
      ih _ hd'.2, Counter.get_addCount]
    by_cases h : kv.1 = p
    · have hmem : ¬(Counter.containsKey rest p = true) := fun hc =>
        (h ▸ hd'.1) ((Counter.containsKey_iff_mem_keys rest p).mp hc)
      have hfalse : Counter.containsKey rest p = false := by
        cases hck : Counter.containsKey rest p
        · rfl
        · exact absurd hck hmem
      rw [Counter.get_eq_zero_of_not_containsKey rest p hfalse]
      simp [Counter.get, h]
    · simp [Counter.get, h]

theorem Counter.containsKey_update [DecidableEq P] (c d : Counter P) (p : P) :
    Counter.containsKey (Counter.update c d) p =
      (Counter.containsKey c p || Counter.containsKey d p) := by
  induction d generalizing c with
  | nil => simp [Counter.update, Counter.containsKey]
  | cons kv rest ih =>
    rw [show Counter.update c (kv :: rest) =
      Counter.update (Counter.addCount c kv.1 kv.2) rest from rfl, ih,
      Counter.containsKey_addCount]
    simp only [Counter.containsKey, List.any_cons]
    rw [Bool.or_assoc]

theorem Counter.get_del [DecidableEq P] (c : Counter P) (k p : P) :
    Counter.get (Counter.del c k) p = if k = p then 0 else Counter.get c p := by
  induction c with
  | nil => simp [Counter.del, Counter.get]
  | cons kv rest ih =>
    simp only [Counter.del, List.filter_cons] at ih ⊢
    by_cases hk : kv.1 = k
    · have : decide (kv.1 ≠ k) = false := by simp [hk]
      rw [this]
      simp only [Bool.false_eq_true, if_false]
      rw [ih]
      by_cases hp : k = p
      · rw [if_pos hp, if_pos hp]
      · rw [if_neg hp, if_neg hp]
        have : ¬(kv.1 = p) := fun hq => hp (hk ▸ hq)
        rw [Counter.get, if_neg this]
    · have : decide (kv.1 ≠ k) = true := by simp [hk]
      rw [this]
      simp only [if_true]
      rw [Counter.get, ih]
      by_cases hp : k = p
      · rw [if_pos hp, if_pos hp]
        have : ¬(kv.1 = p) := fun hq => hk (hq.trans hp.symm)
        rw [if_neg this]
      · rw [if_neg hp, if_neg hp, Counter.get]

theorem Counter.containsKey_del [DecidableEq P] (c : Counter P) (k p : P) :
    Counter.containsKey (Counter.del c k) p = true ↔
      Counter.containsKey c p = true ∧ p ≠ k := by
  rw [Counter.containsKey_iff_mem_keys, Counter.containsKey_iff_mem_keys,
    Counter.del]
  constructor
  · intro h
    obtain ⟨kv, hkv, rfl⟩ := List.mem_map.mp h
    obtain ⟨hmem, hpred⟩ := List.mem_filter.mp hkv
    refine ⟨List.mem_map.mpr ⟨kv, hmem, rfl⟩, by simpa using hpred⟩
  · rintro ⟨h, hne⟩
    obtain ⟨kv, hkv, rfl⟩ := List.mem_map.mp h
    exact List.mem_map.mpr ⟨kv, List.mem_filter.mpr ⟨hkv, by simpa using hne⟩, rfl⟩

theorem Counter.nodupKeys_addCount [DecidableEq P] (c : Counter P) (k : P)
    (n : Nat) (h : Counter.NodupKeys c) :
    Counter.NodupKeys (Counter.addCount c k n) := by
  induction c with
  | nil => simp [Counter.addCount, Counter.NodupKeys]
  | cons kv rest ih =>
    rw [Counter.NodupKeys, List.map_cons, List.nodup_cons] at h
    simp only [Counter.addCount]
    by_cases hk : kv.1 = k
    · rw [if_pos hk, Counter.NodupKeys, List.map_cons, List.nodup_cons]
      exact ⟨h.1, h.2⟩
    · rw [if_neg hk, Counter.NodupKeys, List.map_cons, List.nodup_cons]
      refine ⟨?_, ih h.2⟩
      intro hmem
      have hck := (Counter.containsKey_iff_mem_keys _ kv.1).mpr hmem
      rw [Counter.containsKey_addCount] at hck
      rcases Bool.or_eq_true _ _ |>.mp hck with hmem2 | hkk
      · exact h.1 ((Counter.containsKey_iff_mem_keys rest kv.1).mp hmem2)
      · exact hk (of_decide_eq_true hkk).symm

theorem Counter.nodupKeys_incr [DecidableEq P] (c : Counter P) (k : P)
    (h : Counter.NodupKeys c) : Counter.NodupKeys (Counter.incr c k) :=
  Counter.nodupKeys_addCount c k 1 h

theorem Counter.nodupKeys_update [DecidableEq P] (c d : Counter P)
    (h : Counter.NodupKeys c) : Counter.NodupKeys (Counter.update c d) := by
  induction d generalizing c with
  | nil => exact h
  | cons kv rest ih =>
    exact ih _ (Counter.nodupKeys_addCount c kv.1 kv.2 h)

theorem Counter.nodupKeys_del [DecidableEq P] (c : Counter P) (k : P)
    (h : Counter.NodupKeys c) : Counter.NodupKeys (Counter.del c k) := by
  rw [Counter.NodupKeys] at h ⊢
  exact List.Nodup.sublist (List.Sublist.map Prod.fst (List.filter_sublist c)) h

theorem Counter.allPos_addCount [DecidableEq P] (c : Counter P) (k : P)
    (n : Nat) (hc : Counter.AllPos c) (hn : 1 ≤ n) :
    Counter.AllPos (Counter.addCount c k n) := by
  induction c with
  | nil =>
    intro kv hkv
    simp only [Counter.addCount, List.mem_singleton] at hkv
    rw [hkv]
    exact hn
  | cons kv rest ih =>
    have hhead : 1 ≤ kv.2 := hc kv (List.mem_cons_self kv rest)
    have hrest : Counter.AllPos rest := fun x hx => hc x (List.mem_cons_of_mem kv hx)
    simp only [Counter.addCount]
    by_cases hk : kv.1 = k
    · rw [if_pos hk]
      intro x hx
      rcases List.mem_cons.mp hx with rfl | hx2
      · simp; omega
      · exact hrest x hx2
    · rw [if_neg hk]
      intro x hx
      rcases List.mem_cons.mp hx with rfl | hx2
      · exact hhead
      · exact ih hrest x hx2

theorem Counter.allPos_incr [DecidableEq P] (c : Counter P) (k : P)
    (hc : Counter.AllPos c) : Counter.AllPos (Counter.incr c k) :=
  Counter.allPos_addCount c k 1 hc le_rfl

theorem Counter.allPos_update [DecidableEq P] (c d : Counter P)
    (hc : Counter.AllPos c) (hd : Counter.AllPos d) :
    Counter.AllPos (Counter.update c d) := by
  induction d generalizing c with
  | nil => exact hc
  | cons kv rest ih =>
    have hhead : 1 ≤ kv.2 := hd kv (List.mem_cons_self kv rest)
    have hrest : Counter.AllPos rest := fun x hx => hd x (List.mem_cons_of_mem kv hx)
    exact ih _ (Counter.allPos_addCount c kv.1 kv.2 hc hhead) hrest

theorem Counter.allPos_del [DecidableEq P] (c : Counter P) (k : P)
    (hc : Counter.AllPos c) : Counter.AllPos (Counter.del c k) := fun kv hkv =>
  hc kv (List.mem_filter.mp hkv).1

theorem Counter.get_pos_of_containsKey [DecidableEq P] (c : Counter P) (p : P)
    (hc : Counter.AllPos c) (h : Counter.containsKey c p = true) :
    1 ≤ Counter.get c p := by
  induction c with
  | nil => simp [Counter.containsKey] at h
  | cons kv rest ih =>
    rw [Counter.get]
    by_cases hp : kv.1 = p
    · rw [if_pos hp]
      exact hc kv (List.mem_cons_self kv rest)
    · rw [if_neg hp]
      have hrest : Counter.AllPos rest := fun x hx => hc x (List.mem_cons_of_mem kv hx)
      have h2 : Counter.containsKey rest p = true := by
        simp only [Counter.containsKey, List.any_cons, Bool.or_eq_true,
          decide_eq_true_eq] at h
        rcases h with h | h
        · exact absurd h hp
        · exact h
      exact ih hrest h2

/-! ### Playing the games -/

theorem play_games_cons {P E : Type} [DecidableEq P]
    (play : Board P → Except E (P × String)) (g : Board P) (gs : List (Board P))
    (w : Counter P) (l : Counter String) :
    play_games play (g :: gs) w l =
      match play g with
      | .error e => .error e
      | .ok (winner, reason) =>
        play_games play gs (Counter.incr w winner) (Counter.incr l reason) := rfl

theorem play_seqs_cons {P E : Type} [DecidableEq P]
    (play : Board P → Except E (P × String)) (s : List (Board P))
    (ss : List (List (Board P))) (w : Counter P) (l : Counter String) :
    play_seqs play (s :: ss) w l =
      match play_games play s w l with
      | .error e => .error e
      | .ok (w1, l1) => play_seqs play ss w1 l1 := rfl

theorem play_games_ok_sum {P E : Type} [DecidableEq P]
    (play : Board P → Except E (P × String)) (gs : List (Board P))
    (w : Counter P) (l : Counter String) (w' : Counter P) (l' : Counter String)
    (h : play_games play gs w l = .ok (w', l')) :
    Counter.sumValues w' = Counter.sumValues w + gs.length := by
  induction gs generalizing w l with
  | nil =>
    have h' : (w, l) = (w', l') := by simpa [play_games] using h
    obtain ⟨rfl, rfl⟩ := Prod.mk.injEq _ _ _ _ |>.mp h'
    simp
  | cons g gs ih =>
    rw [play_games_cons] at h
    cases hp : play g with
    | error e => rw [hp] at h; exact absurd h (by simp)
    | ok res =>
      obtain ⟨winner, reason⟩ := res
      rw [hp] at h
      have h2 : play_games play gs (Counter.incr w winner)
          (Counter.incr l reason) = .ok (w', l') := h
      rw [ih _ _ h2, Counter.sumValues_incr, List.length_cons]
      omega

theorem play_seqs_ok_sum {P E : Type} [DecidableEq P]
    (play : Board P → Except E (P × String)) (ss : List (List (Board P)))
    (w : Counter P) (l : Counter String) (w' : Counter P) (l' : Counter String)
    (h : play_seqs play ss w l = .ok (w', l')) :
    Counter.sumValues w' = Counter.sumValues w + (ss.map List.length).sum := by
  induction ss generalizing w l with
  | nil =>
    have h' : (w, l) = (w', l') := by simpa [play_seqs] using h
    obtain ⟨rfl, rfl⟩ := Prod.mk.injEq _ _ _ _ |>.mp h'
    simp
  | cons s ss ih =>
    rw [play_seqs_cons] at h
    cases hg : play_games play s w l with
    | error e => rw [hg] at h; exact absurd h (by simp)
    | ok res =>
      obtain ⟨w1, l1⟩ := res
      rw [hg] at h
      have h2 : play_seqs play ss w1 l1 = .ok (w', l') := h
      rw [ih _ _ h2, play_games_ok_sum play s w l w1 l1 hg, List.map_cons,
        List.sum_cons]
      omega

theorem prepare_same_fair_matches_count (agent : Agent P)
    (opps : List (Agent P)) (n : Nat) (r : Rng) :
    (prepare_same_fair_matches agent opps n r).1.length = opps.length := by
  rw [prepare_same_fair_matches_eq]; simp

theorem prepare_same_fair_matches_seq_length (agent : Agent P)
    (opps : List (Agent P)) (n : Nat) (r : Rng) :
    ∀ s ∈ (prepare_same_fair_matches agent opps n r).1, s.length = 2 * n := by
  intro s hs
  rw [prepare_same_fair_matches_eq] at hs
  obtain ⟨o, _, rfl⟩ := List.mem_map.mp hs
  rw [flatMap_pair_length, gen_same_opening_moves_length]

theorem sum_lengths_const {β : Type} (ls : List (List β)) (c : Nat)
    (h : ∀ s ∈ ls, s.length = c) : (ls.map List.length).sum = c * ls.length := by
  induction ls with
  | nil => simp
  | cons s rest ih =>
    rw [List.map_cons, List.sum_cons, h s (List.mem_cons_self s rest),
      ih fun x hx => h x (List.mem_cons_of_mem s hx), List.length_cons]
    ring

theorem play_fair_round_eq {P E : Type} [DecidableEq P]
    (play : Board P → Except E (P × String)) (cpu : Agent P)
    (tests : List (Agent P)) (n : Nat) (r : Rng) :
    play_fair_round play cpu tests n r =
      match play_seqs play (prepare_same_fair_matches cpu tests n r).1 [] [] with
      | .error e => .error e
      | .ok (w, l) => .ok (w, l, (prepare_same_fair_matches cpu tests n r).2) := rfl

/-- C4: after any completed round of `play_fair_round` with `k` test agents
and match count `n`, the sum over all values of the round's win counter
equals `2 * n * k`, the total number of games played in the round (this is
exactly the `assert` that closes `play_fair_round`, proved to always hold on
a completed round). -/
theorem round_win_total_conservation {P E : Type} [DecidableEq P]
    (play : Board P → Except E (P × String)) (cpu : Agent P)
    (tests : List (Agent P)) (n : Nat) (r : Rng) (w : Counter P)
    (l : Counter String) (r' : Rng)
    (h : play_fair_round play cpu tests n r = .ok (w, l, r')) :
    Counter.sumValues w = 2 * n * tests.length := by
  rw [play_fair_round_eq] at h
  cases hps : play_seqs play (prepare_same_fair_matches cpu tests n r).1 [] [] with
  | error e => rw [hps] at h; exact absurd h (by simp)
  | ok res =>
    obtain ⟨w1, l1⟩ := res
    rw [hps] at h
    have h2 : w1 = w := by
      have := h
      simp only [Except.ok.injEq, Prod.mk.injEq] at this
      exact this.1
    rw [← h2, play_seqs_ok_sum play _ [] [] w1 l1 hps,
      sum_lengths_const _ (2 * n) (prepare_same_fair_matches_seq_length cpu tests n r),
      prepare_same_fair_matches_count cpu tests n r]
    simp [Counter.sumValues]

/-- Witness for C4: a total collaborator that names the first registered
player the winner; anchor `10`, test agents `0, 1`, one match. -/
theorem round_win_total_conservation_witness :
    (play_fair_round (fun g => .ok (g.player1, "loss") : Board Nat → Except Unit (Nat × String))
        ⟨10, "c"⟩ [⟨0, "a"⟩, ⟨1, "b"⟩] 1 ⟨fun _ => 0, 0⟩ =
      .ok ([(10, 2), (0, 1), (1, 1)], [("loss", 4)], ⟨fun _ => 0, 2⟩)) ∧
    Counter.sumValues [(10, 2), (0, 1), (1, 1)] = 2 * 1 * 2 :=
  ⟨rfl,
   round_win_total_conservation
     (fun g => .ok (g.player1, "loss") : Board Nat → Except Unit (Nat × String))
     ⟨10, "c"⟩ [⟨0, "a"⟩, ⟨1, "b"⟩] 1 ⟨fun _ => 0, 0⟩ [(10, 2), (0, 1), (1, 1)]
     [("loss", 4)] ⟨fun _ => 0, 2⟩ rfl⟩

/-! ### Error propagation -/

theorem run_rounds_cons {P E : Type} [DecidableEq P]
    (play : Board P → Except E (P × String)) (tests : List (Agent P)) (n : Nat)
    (c : Agent P) (cs : List (Agent P)) (aw : Counter P) (al : Counter String)
    (r : Rng) :
    run_rounds play tests n (c :: cs) aw al r =
      match play_fair_round play c tests n r with
      | .error e => .error e
      | .ok (w, l, r') => run_rounds play tests n cs
          (Counter.update aw (Counter.del w c.player)) (Counter.update al l) r' := rfl

theorem tournament_schedule_cons {P : Type} [DecidableEq P]
    (tests : List (Agent P)) (n : Nat) (c : Agent P) (cs : List (Agent P))
    (r : Rng) :
    tournament_schedule tests n (c :: cs) r =
      (prepare_same_fair_matches c tests n r).1.flatten ++
        tournament_schedule tests n cs (prepare_same_fair_matches c tests n r).2 := rfl

theorem run_fair_tournament_eq {P E : Type} [DecidableEq P]
    (play : Board P → Except E (P × String)) (cpus tests : List (Agent P))
    (n : Nat) (r : Rng) :
    run_fair_tournament play cpus tests n r =
      match run_rounds play tests n cpus [] [] r with
      | .error e => .error (.play e)
      | .ok (aw, al, _) =>
        if aw.length = tests.length then
          if Counter.sumValues aw ≤ 2 * n * cpus.length * tests.length then
            .ok ⟨aw, al, format_win_rates_values tests aw (2 * n * cpus.length)⟩
          else .error .assertionFailed
        else .error .assertionFailed := rfl

theorem play_fair_round_rng {P E : Type} [DecidableEq P]
    (play : Board P → Except E (P × String)) (cpu : Agent P)
    (tests : List (Agent P)) (n : Nat) (r : Rng) (w : Counter P)
    (l : Counter String) (r' : Rng)
    (h : play_fair_round play cpu tests n r = .ok (w, l, r')) :
    r' = (prepare_same_fair_matches cpu tests n r).2 := by
  rw [play_fair_round_eq] at h
  cases hps : play_seqs play (prepare_same_fair_matches cpu tests n r).1 [] [] with
  | error e => rw [hps] at h; exact absurd h (by simp)
  | ok res =>
    obtain ⟨w1, l1⟩ := res
    rw [hps] at h
    simp only [Except.ok.injEq, Prod.mk.injEq] at h
    exact h.2.2.symm

theorem play_games_ok_forall {P E : Type} [DecidableEq P]
    (play : Board P → Except E (P × String)) (gs : List (Board P))
    (w : Counter P) (l : Counter String) (x : Counter P × Counter String)
    (h : play_games play gs w l = .ok x) :
    ∀ g ∈ gs, ∃ o, play g = .ok o := by
  induction gs generalizing w l with
  | nil => intro g hg; simp at hg
  | cons g0 gs ih =>
    rw [play_games_cons] at h
    cases hp : play g0 with
    | error e => rw [hp] at h; exact absurd h (by simp)
    | ok res =>
      obtain ⟨winner, reason⟩ := res
      rw [hp] at h
      intro g hg
      rcases List.mem_cons.mp hg with rfl | hg2
      · exact ⟨(winner, reason), hp⟩
      · exact ih _ _ h g hg2

theorem play_games_error_source {P E : Type} [DecidableEq P]
    (play : Board P → Except E (P × String)) (gs : List (Board P))
    (w : Counter P) (l : Counter String) (e : E)
    (h : play_games play gs w l = .error e) :
    ∃ g ∈ gs, play g = .error e := by
  induction gs generalizing w l with
  | nil => exact absurd h (by simp [play_games])
  | cons g0 gs ih =>
    rw [play_games_cons] at h
    cases hp : play g0 with
    | error e0 =>
      rw [hp] at h
      have : e0 = e := by simpa using h
      exact ⟨g0, List.mem_cons_self g0 gs, this ▸ hp⟩
    | ok res =>
      obtain ⟨winner, reason⟩ := res
      rw [hp] at h
      obtain ⟨g, hg, hge⟩ := ih _ _ h
      exact ⟨g, List.mem_cons_of_mem g0 hg, hge⟩

theorem play_seqs_ok_forall {P E : Type} [DecidableEq P]
    (play : Board P → Except E (P × String)) (ss : List (List (Board P)))
    (w : Counter P) (l : Counter String) (x : Counter P × Counter String)
    (h : play_seqs play ss w l = .ok x) :
    ∀ g ∈ ss.flatten, ∃ o, play g = .ok o := by
  induction ss generalizing w l with
  | nil => intro g hg; simp at hg
  | cons s ss ih =>
    rw [play_seqs_cons] at h
    cases hg0 : play_games play s w l with
    | error e => rw [hg0] at h; exact absurd h (by simp)
    | ok res =>
      obtain ⟨w1, l1⟩ := res
      rw [hg0] at h
      intro g hg
      rw [List.flatten_cons, List.mem_append] at hg
      rcases hg with hg | hg
      · exact play_games_ok_forall play s w l _ hg0 g hg
      · exact ih _ _ h g hg

theorem play_seqs_error_source {P E : Type} [DecidableEq P]
    (play : Board P → Except E (P × String)) (ss : List (List (Board P)))
    (w : Counter P) (l : Counter String) (e : E)
    (h : play_seqs play ss w l = .error e) :
    ∃ g ∈ ss.flatten, play g = .error e := by
  induction ss generalizing w l with
  | nil => exact absurd h (by simp [play_seqs])
  | cons s ss ih =>
    rw [play_seqs_cons] at h
    cases hg0 : play_games play s w l with
    | error e0 =>
      rw [hg0] at h
      have he : e0 = e := by simpa using h
      obtain ⟨g, hg, hge⟩ := play_games_error_source play s w l e0 hg0
      exact ⟨g, by rw [List.flatten_cons, List.mem_append]; exact Or.inl hg, he ▸ hge⟩
    | ok res =>
      obtain ⟨w1, l1⟩ := res
      rw [hg0] at h
      obtain ⟨g, hg, hge⟩ := ih _ _ h
      exact ⟨g, by rw [List.flatten_cons, List.mem_append]; exact Or.inr hg, hge⟩

theorem play_fair_round_ok_forall {P E : Type} [DecidableEq P]
    (play : Board P → Except E (P × String)) (cpu : Agent P)
    (tests : List (Agent P)) (n : Nat) (r : Rng)
    (x : Counter P × Counter String × Rng)
    (h : play_fair_round play cpu tests n r = .ok x) :
    ∀ g ∈ (prepare_same_fair_matches cpu tests n r).1.flatten,
      ∃ o, play g = .ok o := by
  rw [play_fair_round_eq] at h
  cases hps : play_seqs play (prepare_same_fair_matches cpu tests n r).1 [] [] with
  | error e => rw [hps] at h; exact absurd h (by simp)
  | ok res => exact play_seqs_ok_forall play _ [] [] res hps

theorem play_fair_round_error_source {P E : Type} [DecidableEq P]
    (play : Board P → Except E (P × String)) (cpu : Agent P)
    (tests : List (Agent P)) (n : Nat) (r : Rng) (e : E)
    (h : play_fair_round play cpu tests n r = .error e) :
    ∃ g ∈ (prepare_same_fair_matches cpu tests n r).1.flatten,
      play g = .error e := by
  rw [play_fair_round_eq] at h
  cases hps : play_seqs play (prepare_same_fair_matches cpu tests n r).1 [] [] with
  | error e0 =>
    rw [hps] at h
    have he : e0 = e := by simpa using h
    exact he ▸ play_seqs_error_source play _ [] [] e0 hps
  | ok res =>
    obtain ⟨w1, l1⟩ := res
    rw [hps] at h
    exact absurd h (by simp)

theorem run_rounds_ok_forall {P E : Type} [DecidableEq P]
    (play : Board P → Except E (P × String)) (tests : List (Agent P)) (n : Nat)
    (cpus : List (Agent P)) (aw : Counter P) (al : Counter String) (r : Rng)
    (x : Counter P × Counter String × Rng)
    (h : run_rounds play tests n cpus aw al r = .ok x) :
    ∀ g ∈ tournament_schedule tests n cpus r, ∃ o, play g = .ok o := by
  induction cpus generalizing aw al r with
  | nil => intro g hg; simp [tournament_schedule] at hg
  | cons c cs ih =>
    rw [run_rounds_cons] at h
    cases hpr : play_fair_round play c tests n r with
    | error e => rw [hpr] at h; exact absurd h (by simp)
    | ok res =>
      obtain ⟨w, l, r'⟩ := res
      rw [hpr] at h
      intro g hg
      rw [tournament_schedule_cons, List.mem_append] at hg
      rcases hg with hg | hg
      · exact play_fair_round_ok_forall play c tests n r _ hpr g hg
      · have hr' : r' = (prepare_same_fair_matches c tests n r).2 :=
          play_fair_round_rng play c tests n r w l r' hpr
        exact ih _ _ _ (hr' ▸ h) g hg

theorem run_rounds_error_source {P E : Type} [DecidableEq P]
    (play : Board P → Except E (P × String)) (tests : List (Agent P)) (n : Nat)
    (cpus : List (Agent P)) (aw : Counter P) (al : Counter String) (r : Rng)
    (e : E) (h : run_rounds play tests n cpus aw al r = .error e) :
    ∃ g ∈ tournament_schedule tests n cpus r, play g = .error e := by
  induction cpus generalizing aw al r with
  | nil => exact absurd h (by simp [run_rounds])
  | cons c cs ih =>
    rw [run_rounds_cons] at h
    cases hpr : play_fair_round play c tests n r with
    | error e0 =>
      rw [hpr] at h
      have he : e0 = e := by simpa using h
      obtain ⟨g, hg, hge⟩ := play_fair_round_error_source play c tests n r e0 hpr
      refine ⟨g, ?_, he ▸ hge⟩
      rw [tournament_schedule_cons, List.mem_append]
      exact Or.inl hg
    | ok res =>
      obtain ⟨w, l, r'⟩ := res
      rw [hpr] at h
      have hr' : r' = (prepare_same_fair_matches c tests n r).2 :=
        play_fair_round_rng play c tests n r w l r' hpr
      obtain ⟨g, hg, hge⟩ := ih _ _ _ (hr' ▸ h)
      refine ⟨g, ?_, hge⟩
      rw [tournament_schedule_cons, List.mem_append]
      exact Or.inr hg

/-- C8: a failure of the play-to-completion collaborator on any scheduled
game is not caught or retried anywhere: `run_fair_tournament` returns that
collaborator error unchanged (wrapped only by the abort), so no win counts,
loss-reason statistics or win rates are produced for the partial run. -/
theorem play_failure_aborts_tournament {P E : Type} [DecidableEq P]
    (play : Board P → Except E (P × String)) (cpus tests : List (Agent P))
    (n : Nat) (r : Rng)
    (h : ∃ g ∈ tournament_schedule tests n cpus r, ∃ e, play g = .error e) :
    ∃ e, run_fair_tournament play cpus tests n r = .error (.play e) ∧
      ∃ g ∈ tournament_schedule tests n cpus r, play g = .error e := by
  cases hrr : run_rounds play tests n cpus [] [] r with
  | error e =>
    refine ⟨e, ?_, run_rounds_error_source play tests n cpus [] [] r e hrr⟩
    rw [run_fair_tournament_eq, hrr]
  | ok x =>
    obtain ⟨g, hg, e, hpe⟩ := h
    obtain ⟨o, ho⟩ := run_rounds_ok_forall play tests n cpus [] [] r x hrr g hg
    rw [hpe] at ho
    exact absurd ho (by simp)

/-- Witness for C8: a collaborator that fails on every game with error `7`;
the tournament aborts with exactly that error. -/
theorem play_failure_aborts_tournament_witness :
    (∃ g ∈ tournament_schedule ([⟨0, "a"⟩] : List (Agent Nat)) 1 [⟨10, "c"⟩] ⟨fun _ => 0, 0⟩,
      ∃ e, (fun _ => .error 7 : Board Nat → Except Nat (Nat × String)) g = .error e) ∧
    (∃ e, run_fair_tournament
        (fun _ => .error 7 : Board Nat → Except Nat (Nat × String))
        [⟨10, "c"⟩] [⟨0, "a"⟩] 1 ⟨fun _ => 0, 0⟩ = .error (.play e) ∧
      ∃ g ∈ tournament_schedule ([⟨0, "a"⟩] : List (Agent Nat)) 1 [⟨10, "c"⟩] ⟨fun _ => 0, 0⟩,
        (fun _ => .error 7 : Board Nat → Except Nat (Nat × String)) g = .error e) := by
  have hmem : (⟨10, 0, 7, 7, [(0, 0), (1, 0)], some (0, 0), some (1, 0), true⟩ : Board Nat) ∈
      tournament_schedule ([⟨0, "a"⟩] : List (Agent Nat)) 1 [⟨10, "c"⟩] ⟨fun _ => 0, 0⟩ := by
    decide
  have H : ∃ g ∈ tournament_schedule ([⟨0, "a"⟩] : List (Agent Nat)) 1 [⟨10, "c"⟩] ⟨fun _ => 0, 0⟩,
      ∃ e, (fun _ => .error 7 : Board Nat → Except Nat (Nat × String)) g = .error e :=
    ⟨_, hmem, 7, rfl⟩
  exact ⟨H, play_failure_aborts_tournament _ _ _ _ _ H⟩

/-! ### Winner accounting -/

theorem play_games_get_le {P E : Type} [DecidableEq P]
    (play : Board P → Except E (P × String)) (hleg : plays_registered play)
    (gs : List (Board P)) (w : Counter P) (l : Counter String)
    (w' : Counter P) (l' : Counter String)
    (h : play_games play gs w l = .ok (w', l')) (p : P) :
    Counter.get w' p ≤ Counter.get w p +
      gs.countP (fun g => decide (p = g.player1 ∨ p = g.player2)) := by
  induction gs generalizing w l with
  | nil =>
    have h' : (w, l) = (w', l') := by simpa [play_games] using h
    obtain ⟨rfl, rfl⟩ := Prod.mk.injEq _ _ _ _ |>.mp h'
    simp
  | cons g gs ih =>
    rw [play_games_cons] at h
    cases hp : play g with
    | error e => rw [hp] at h; exact absurd h (by simp)
    | ok res =>
      obtain ⟨winner, reason⟩ := res
      rw [hp] at h
      have h2 : play_games play gs (Counter.incr w winner)
          (Counter.incr l reason) = .ok (w', l') := h
      have hcount := ih (Counter.incr w winner) (Counter.incr l reason) h2
      rw [List.countP_cons]
      by_cases hwp : winner = p
      · have hreg : p = g.player1 ∨ p = g.player2 := hwp ▸ hleg g winner reason hp
        have hpred : decide (p = g.player1 ∨ p = g.player2) = true :=
          decide_eq_true hreg
        rw [hpred, if_pos rfl]
        rw [hwp, Counter.get_incr_self] at hcount
        omega
      · rw [Counter.get_incr_ne w winner p hwp] at hcount
        have : (if decide (p = g.player1 ∨ p = g.player2) = true then 1 else 0) +
            gs.countP (fun g => decide (p = g.player1 ∨ p = g.player2)) ≥
            gs.countP (fun g => decide (p = g.player1 ∨ p = g.player2)) := by omega
        omega

theorem play_games_containsKey {P E : Type} [DecidableEq P]
    (play : Board P → Except E (P × String)) (hleg : plays_registered play)
    (gs : List (Board P)) (w : Counter P) (l : Counter String)
    (w' : Counter P) (l' : Counter String)
    (h : play_games play gs w l = .ok (w', l')) (p : P)
    (hk : Counter.containsKey w' p = true) :
    Counter.containsKey w p = true ∨ ∃ g ∈ gs, p = g.player1 ∨ p = g.player2 := by
  induction gs generalizing w l with
  | nil =>
    have h' : (w, l) = (w', l') := by simpa [play_games] using h
    obtain ⟨rfl, rfl⟩ := Prod.mk.injEq _ _ _ _ |>.mp h'
    exact Or.inl hk
  | cons g gs ih =>
    rw [play_games_cons] at h
    cases hp : play g with
    | error e => rw [hp] at h; exact absurd h (by simp)
    | ok res =>
      obtain ⟨winner, reason⟩ := res
      rw [hp] at h
      have h2 : play_games play gs (Counter.incr w winner)
          (Counter.incr l reason) = .ok (w', l') := h
      rcases ih (Counter.incr w winner) (Counter.incr l reason) h2 with hck | ⟨g2, hg2, hreg⟩
      · rw [Counter.containsKey_incr] at hck
        rcases Bool.or_eq_true _ _ |>.mp hck with hck2 | hwp
        · exact Or.inl hck2
        · have hwp' : winner = p := of_decide_eq_true hwp
          exact Or.inr ⟨g, List.mem_cons_self g gs, hwp' ▸ hleg g winner reason hp⟩
      · exact Or.inr ⟨g2, List.mem_cons_of_mem g hg2, hreg⟩

theorem play_games_nodupKeys {P E : Type} [DecidableEq P]
    (play : Board P → Except E (P × String)) (gs : List (Board P))
    (w : Counter P) (l : Counter String) (w' : Counter P) (l' : Counter String)
    (h : play_games play gs w l = .ok (w', l')) (hw : Counter.NodupKeys w) :
    Counter.NodupKeys w' := by
  induction gs generalizing w l with
  | nil =>
    have h' : (w, l) = (w', l') := by simpa [play_games] using h
    obtain ⟨rfl, rfl⟩ := Prod.mk.injEq _ _ _ _ |>.mp h'
    exact hw
  | cons g gs ih =>
    rw [play_games_cons] at h
    cases hp : play g with
    | error e => rw [hp] at h; exact absurd h (by simp)
    | ok res =>
      obtain ⟨winner, reason⟩ := res
      rw [hp] at h
      exact ih (Counter.incr w winner) (Counter.incr l reason) h
        (Counter.nodupKeys_incr w winner hw)

theorem play_games_allPos {P E : Type} [DecidableEq P]
    (play : Board P → Except E (P × String)) (gs : List (Board P))
    (w : Counter P) (l : Counter String) (w' : Counter P) (l' : Counter String)
    (h : play_games play gs w l = .ok (w', l')) (hw : Counter.AllPos w) :
    Counter.AllPos w' := by
  induction gs generalizing w l with
  | nil =>
    have h' : (w, l) = (w', l') := by simpa [play_games] using h
    obtain ⟨rfl, rfl⟩ := Prod.mk.injEq _ _ _ _ |>.mp h'
    exact hw
  | cons g gs ih =>
    rw [play_games_cons] at h
    cases hp : play g with
    | error e => rw [hp] at h; exact absurd h (by simp)
    | ok res =>
      obtain ⟨winner, reason⟩ := res
      rw [hp] at h
      exact ih (Counter.incr w winner) (Counter.incr l reason) h
        (Counter.allPos_incr w winner hw)

theorem play_seqs_get_le {P E : Type} [DecidableEq P]
    (play : Board P → Except E (P × String)) (hleg : plays_registered play)
    (ss : List (List (Board P))) (w : Counter P) (l : Counter String)
    (w' : Counter P) (l' : Counter String)
    (h : play_seqs play ss w l = .ok (w', l')) (p : P) :
    Counter.get w' p ≤ Counter.get w p +
      (ss.map fun s => s.countP fun g =>
        decide (p = g.player1 ∨ p = g.player2)).sum := by
  induction ss generalizing w l with
  | nil =>
    have h' : (w, l) = (w', l') := by simpa [play_seqs] using h
    obtain ⟨rfl, rfl⟩ := Prod.mk.injEq _ _ _ _ |>.mp h'
    simp
  | cons s ss ih =>
    rw [play_seqs_cons] at h
    cases hg : play_games play s w l with
    | error e => rw [hg] at h; exact absurd h (by simp)
    | ok res =>
      obtain ⟨w1, l1⟩ := res
      rw [hg] at h
      have h2 : play_seqs play ss w1 l1 = .ok (w', l') := h
      have hstep := play_games_get_le play hleg s w l w1 l1 hg p
      have hrest := ih w1 l1 h2
      rw [List.map_cons, List.sum_cons]
      omega

theorem play_seqs_containsKey {P E : Type} [DecidableEq P]
    (play : Board P → Except E (P × String)) (hleg : plays_registered play)
    (ss : List (List (Board P))) (w : Counter P) (l : Counter String)
    (w' : Counter P) (l' : Counter String)
    (h : play_seqs play ss w l = .ok (w', l')) (p : P)
    (hk : Counter.containsKey w' p = true) :
    Counter.containsKey w p = true ∨
      ∃ g ∈ ss.flatten, p = g.player1 ∨ p = g.player2 := by
  induction ss generalizing w l with
  | nil =>
    have h' : (w, l) = (w', l') := by simpa [play_seqs] using h
    obtain ⟨rfl, rfl⟩ := Prod.mk.injEq _ _ _ _ |>.mp h'
    exact Or.inl hk
  | cons s ss ih =>
    rw [play_seqs_cons] at h
    cases hg : play_games play s w l with
    | error e => rw [hg] at h; exact absurd h (by simp)
    | ok res =>
      obtain ⟨w1, l1⟩ := res
      rw [hg] at h
      rcases ih w1 l1 h with hck | ⟨g, hgmem, hreg⟩
      · rcases play_games_containsKey play hleg s w l w1 l1 hg p hck with hck2 | ⟨g, hgmem, hreg⟩
        · exact Or.inl hck2
        · exact Or.inr ⟨g, by rw [List.flatten_cons, List.mem_append]; exact Or.inl hgmem, hreg⟩
      · exact Or.inr ⟨g, by rw [List.flatten_cons, List.mem_append]; exact Or.inr hgmem, hreg⟩

theorem play_seqs_nodupKeys {P E : Type} [DecidableEq P]
    (play : Board P → Except E (P × String)) (ss : List (List (Board P)))
    (w : Counter P) (l : Counter String) (w' : Counter P) (l' : Counter String)
    (h : play_seqs play ss w l = .ok (w', l')) (hw : Counter.NodupKeys w) :
    Counter.NodupKeys w' := by
  induction ss generalizing w l with
  | nil =>
    have h' : (w, l) = (w', l') := by simpa [play_seqs] using h
    obtain ⟨rfl, rfl⟩ := Prod.mk.injEq _ _ _ _ |>.mp h'
    exact hw
  | cons s ss ih =>
    rw [play_seqs_cons] at h
    cases hg : play_games play s w l with
    | error e => rw [hg] at h; exact absurd h (by simp)
    | ok res =>
      obtain ⟨w1, l1⟩ := res
      rw [hg] at h
      exact ih w1 l1 h (play_games_nodupKeys play s w l w1 l1 hg hw)

theorem play_seqs_allPos {P E : Type} [DecidableEq P]
    (play : Board P → Except E (P × String)) (ss : List (List (Board P)))
    (w : Counter P) (l : Counter String) (w' : Counter P) (l' : Counter String)
    (h : play_seqs play ss w l = .ok (w', l')) (hw : Counter.AllPos w) :
    Counter.AllPos w' := by
  induction ss generalizing w l with
  | nil =>
    have h' : (w, l) = (w', l') := by simpa [play_seqs] using h
    obtain ⟨rfl, rfl⟩ := Prod.mk.injEq _ _ _ _ |>.mp h'
    exact hw
  | cons s ss ih =>
    rw [play_seqs_cons] at h
    cases hg : play_games play s w l with
    | error e => rw [hg] at h; exact absurd h (by simp)
    | ok res =>
      obtain ⟨w1, l1⟩ := res
      rw [hg] at h
      exact ih w1 l1 h (play_games_allPos play s w l w1 l1 hg hw)

/-! ### Round-level accounting -/

theorem round_game_players (cpu : Agent P) (tests : List (Agent P)) (n : Nat)
    (r : Rng) :
    ∀ g ∈ (prepare_same_fair_matches cpu tests n r).1.flatten, ∃ t ∈ tests,
      (g.player1 = cpu.player ∧ g.player2 = t.player) ∨
      (g.player1 = t.player ∧ g.player2 = cpu.player) := by
  intro g hg
  rw [prepare_same_fair_matches_eq] at hg
  obtain ⟨s, hsmem, hgs⟩ := List.mem_flatten.mp hg
  obtain ⟨t, htmem, rfl⟩ := List.mem_map.mp hsmem
  obtain ⟨om, _, hb2⟩ := List.mem_flatMap.mp hgs
  refine ⟨t, htmem, ?_⟩
  rcases List.mem_pair.mp hb2 with rfl | rfl
  · exact Or.inl ⟨by rw [player1_apply_all]; rfl, by rw [player2_apply_all]; rfl⟩
  · exact Or.inr ⟨by rw [player1_apply_all]; rfl, by rw [player2_apply_all]; rfl⟩

theorem seq_countP_eq_zero [DecidableEq P] (cpu : Agent P) (t : Agent P)
    (oms : List (List Move)) (p : P) (hp1 : p ≠ cpu.player) (hp2 : p ≠ t.player) :
    (oms.flatMap fun om =>
      [(Board.init cpu.player t.player 7 7).apply_all om,
       (Board.init t.player cpu.player 7 7).apply_all om]).countP
      (fun g => decide (p = g.player1 ∨ p = g.player2)) = 0 := by
  rw [List.countP_eq_zero]
  intro g hg
  obtain ⟨om, _, hb2⟩ := List.mem_flatMap.mp hg
  simp only [decide_eq_true_eq]
  rintro (hreg | hreg) <;> rcases List.mem_pair.mp hb2 with rfl | rfl
  · exact hp1 (by rw [hreg, player1_apply_all]; rfl)
  · exact hp2 (by rw [hreg, player1_apply_all]; rfl)
  · exact hp2 (by rw [hreg, player2_apply_all]; rfl)
  · exact hp1 (by rw [hreg, player2_apply_all]; rfl)

theorem round_countP_bound [DecidableEq P] (cpu : Agent P)
    (tests : List (Agent P)) (n : Nat) (r : Rng) (p : P) (hp : p ≠ cpu.player)
    (hdist : (tests.map Agent.player).Nodup) :
    ((prepare_same_fair_matches cpu tests n r).1.map fun s =>
      s.countP fun g => decide (p = g.player1 ∨ p = g.player2)).sum ≤ 2 * n := by
  rw [prepare_same_fair_matches_eq]
  show ((tests.map fun o => (gen_same_opening_moves n r).1.flatMap fun om =>
      [(Board.init cpu.player o.player 7 7).apply_all om,
       (Board.init o.player cpu.player 7 7).apply_all om]).map fun s =>
        s.countP fun g => decide (p = g.player1 ∨ p = g.player2)).sum ≤ 2 * n
  induction tests with
  | nil => simp
  | cons t ts ih =>
    rw [List.map_cons, List.nodup_cons] at hdist
    rw [List.map_cons, List.map_cons, List.sum_cons]
    by_cases hpt : p = t.player
    · have hsum0 : ((ts.map fun o => (gen_same_opening_moves n r).1.flatMap fun om =>
          [(Board.init cpu.player o.player 7 7).apply_all om,
           (Board.init o.player cpu.player 7 7).apply_all om]).map fun s =>
            s.countP fun g => decide (p = g.player1 ∨ p = g.player2)).sum = 0 := by
        apply List.sum_eq_zero
        intro x hx
        obtain ⟨s, hs, rfl⟩ := List.mem_map.mp hx
        obtain ⟨t2, ht2, rfl⟩ := List.mem_map.mp hs
        refine seq_countP_eq_zero cpu t2 _ p hp ?_
        intro hq
        exact hdist.1 (List.mem_map.mpr ⟨t2, ht2, hq.symm.trans hpt⟩)
      rw [hsum0]
      have hlen : ((gen_same_opening_moves n r).1.flatMap fun om =>
          [(Board.init cpu.player t.player 7 7).apply_all om,
           (Board.init t.player cpu.player 7 7).apply_all om]).countP
            (fun g => decide (p = g.player1 ∨ p = g.player2)) ≤ 2 * n := by
        calc _ ≤ ((gen_same_opening_moves n r).1.flatMap fun om =>
              [(Board.init cpu.player t.player 7 7).apply_all om,
               (Board.init t.player cpu.player 7 7).apply_all om]).length :=
            List.countP_le_length _
          _ = 2 * n := by rw [flatMap_pair_length, gen_same_opening_moves_length]
      omega
    · have hz := seq_countP_eq_zero cpu t (gen_same_opening_moves n r).1 p hp hpt
      rw [hz]
      have := ih hdist.2
      omega

theorem play_fair_round_ok_cases {P E : Type} [DecidableEq P]
    (play : Board P → Except E (P × String)) (cpu : Agent P)
    (tests : List (Agent P)) (n : Nat) (r : Rng) (w : Counter P)
    (l : Counter String) (r' : Rng)
    (h : play_fair_round play cpu tests n r = .ok (w, l, r')) :
    play_seqs play (prepare_same_fair_matches cpu tests n r).1 [] [] =
      .ok (w, l) := by
  rw [play_fair_round_eq] at h
  cases hps : play_seqs play (prepare_same_fair_matches cpu tests n r).1 [] [] with
  | error e => rw [hps] at h; exact absurd h (by simp)
  | ok res =>
    obtain ⟨w1, l1⟩ := res
    rw [hps] at h
    simp only [Except.ok.injEq, Prod.mk.injEq] at h
    rw [h.1, h.2.1]

theorem play_fair_round_get_bound {P E : Type} [DecidableEq P]
    (play : Board P → Except E (P × String)) (hleg : plays_registered play)
    (cpu : Agent P) (tests : List (Agent P)) (n : Nat) (r : Rng)
    (w : Counter P) (l : Counter String) (r' : Rng)
    (h : play_fair_round play cpu tests n r = .ok (w, l, r'))
    (hdist : (tests.map Agent.player).Nodup) (p : P) (hp : p ≠ cpu.player) :
    Counter.get w p ≤ 2 * n := by
  have hps := play_fair_round_ok_cases play cpu tests n r w l r' h
  have hle := play_seqs_get_le play hleg _ [] [] w l hps p
  have hbound := round_countP_bound cpu tests n r p hp hdist
  simp only [Counter.get] at hle
  omega

theorem play_fair_round_containsKey {P E : Type} [DecidableEq P]
    (play : Board P → Except E (P × String)) (hleg : plays_registered play)
    (cpu : Agent P) (tests : List (Agent P)) (n : Nat) (r : Rng)
    (w : Counter P) (l : Counter String) (r' : Rng)
    (h : play_fair_round play cpu tests n r = .ok (w, l, r')) (p : P)
    (hk : Counter.containsKey w p = true) :
    p = cpu.player ∨ p ∈ tests.map Agent.player := by
  have hps := play_fair_round_ok_cases play cpu tests n r w l r' h
  rcases play_seqs_containsKey play hleg _ [] [] w l hps p hk with hck | ⟨g, hg, hreg⟩
  · exact absurd hck (by simp [Counter.containsKey])
  · obtain ⟨t, htmem, hpl⟩ := round_game_players cpu tests n r g hg
    rcases hreg with hreg | hreg <;> rcases hpl with ⟨h1, h2⟩ | ⟨h1, h2⟩
    · exact Or.inl (hreg.trans h1)
    · exact Or.inr (List.mem_map.mpr ⟨t, htmem, (hreg.trans h1).symm⟩)
    · exact Or.inr (List.mem_map.mpr ⟨t, htmem, (hreg.trans h2).symm⟩)
    · exact Or.inl (hreg.trans h2)

theorem play_fair_round_nodupKeys {P E : Type} [DecidableEq P]
    (play : Board P → Except E (P × String)) (cpu : Agent P)
    (tests : List (Agent P)) (n : Nat) (r : Rng) (w : Counter P)
    (l : Counter String) (r' : Rng)
    (h : play_fair_round play cpu tests n r = .ok (w, l, r')) :
    Counter.NodupKeys w :=
  play_seqs_nodupKeys play _ [] [] w l
    (play_fair_round_ok_cases play cpu tests n r w l r' h)
    (by simp [Counter.NodupKeys])

theorem play_fair_round_allPos {P E : Type} [DecidableEq P]
    (play : Board P → Except E (P × String)) (cpu : Agent P)
    (tests : List (Agent P)) (n : Nat) (r : Rng) (w : Counter P)
    (l : Counter String) (r' : Rng)
    (h : play_fair_round play cpu tests n r = .ok (w, l, r')) :
    Counter.AllPos w :=
  play_seqs_allPos play _ [] [] w l
    (play_fair_round_ok_cases play cpu tests n r w l r' h)
    (by intro kv hkv; simp at hkv)

/-! ### Tournament-level accounting -/

theorem round_wins_cons {P E : Type} [DecidableEq P]
    (play : Board P → Except E (P × String)) (tests : List (Agent P)) (n : Nat)
    (c : Agent P) (cs : List (Agent P)) (r : Rng) :
    round_wins play tests n (c :: cs) r =
      match play_fair_round play c tests n r with
      | .error _ => []
      | .ok (w, _, r') => w :: round_wins play tests n cs r' := rfl

theorem run_rounds_containsKey {P E : Type} [DecidableEq P]
    (play : Board P → Except E (P × String)) (hleg : plays_registered play)
    (tests : List (Agent P)) (n : Nat) (cpus : List (Agent P)) (aw : Counter P)
    (al : Counter String) (r : Rng) (aw' : Counter P) (al' : Counter String)
    (r' : Rng) (h : run_rounds play tests n cpus aw al r = .ok (aw', al', r'))
    (p : P) (hk : Counter.containsKey aw' p = true) :
    Counter.containsKey aw p = true ∨ p ∈ tests.map Agent.player := by
  induction cpus generalizing aw al r with
  | nil =>
    have h' : (aw, al, r) = (aw', al', r') := by simpa [run_rounds] using h
    simp only [Prod.mk.injEq] at h'
    exact Or.inl (h'.1 ▸ hk)
  | cons c cs ih =>
    rw [run_rounds_cons] at h
    cases hpr : play_fair_round play c tests n r with
    | error e => rw [hpr] at h; exact absurd h (by simp)
    | ok res =>
      obtain ⟨w, l, r2⟩ := res
      rw [hpr] at h
      rcases ih _ _ _ h with hck | hmem
      · rw [Counter.containsKey_update] at hck
        rcases Bool.or_eq_true _ _ |>.mp hck with hck2 | hdel
        · exact Or.inl hck2
        · obtain ⟨hckw, hpne⟩ := (Counter.containsKey_del w c.player p).mp hdel
          rcases play_fair_round_containsKey play hleg c tests n r w l r2 hpr p hckw with hcp | hmem2
          · exact absurd hcp hpne
          · exact Or.inr hmem2
      · exact Or.inr hmem

theorem run_rounds_nodupKeys {P E : Type} [DecidableEq P]
    (play : Board P → Except E (P × String)) (tests : List (Agent P)) (n : Nat)
    (cpus : List (Agent P)) (aw : Counter P) (al : Counter String) (r : Rng)
    (aw' : Counter P) (al' : Counter String) (r' : Rng)
    (h : run_rounds play tests n cpus aw al r = .ok (aw', al', r'))
    (hnd : Counter.NodupKeys aw) : Counter.NodupKeys aw' := by
  induction cpus generalizing aw al r with
  | nil =>
    have h' : (aw, al, r) = (aw', al', r') := by simpa [run_rounds] using h
    simp only [Prod.mk.injEq] at h'
    exact h'.1 ▸ hnd
  | cons c cs ih =>
    rw [run_rounds_cons] at h
    cases hpr : play_fair_round play c tests n r with
    | error e => rw [hpr] at h; exact absurd h (by simp)
    | ok res =>
      obtain ⟨w, l, r2⟩ := res
      rw [hpr] at h
      exact ih _ _ _ h (Counter.nodupKeys_update aw _ hnd)

theorem run_rounds_allPos {P E : Type} [DecidableEq P]
    (play : Board P → Except E (P × String)) (tests : List (Agent P)) (n : Nat)
    (cpus : List (Agent P)) (aw : Counter P) (al : Counter String) (r : Rng)
    (aw' : Counter P) (al' : Counter String) (r' : Rng)
    (h : run_rounds play tests n cpus aw al r = .ok (aw', al', r'))
    (hpos : Counter.AllPos aw) : Counter.AllPos aw' := by
  induction cpus generalizing aw al r with
  | nil =>
    have h' : (aw, al, r) = (aw', al', r') := by simpa [run_rounds] using h
    simp only [Prod.mk.injEq] at h'
    exact h'.1 ▸ hpos
  | cons c cs ih =>
    rw [run_rounds_cons] at h
    cases hpr : play_fair_round play c tests n r with
    | error e => rw [hpr] at h; exact absurd h (by simp)
    | ok res =>
      obtain ⟨w, l, r2⟩ := res
      rw [hpr] at h
      exact ih _ _ _ h (Counter.allPos_update aw _ hpos
        (Counter.allPos_del w c.player
          (play_fair_round_allPos play c tests n r w l r2 hpr)))

theorem run_rounds_get_bound {P E : Type} [DecidableEq P]
    (play : Board P → Except E (P × String)) (hleg : plays_registered play)
    (tests : List (Agent P)) (n : Nat) (cpus : List (Agent P)) (aw : Counter P)
    (al : Counter String) (r : Rng) (aw' : Counter P) (al' : Counter String)
    (r' : Rng) (h : run_rounds play tests n cpus aw al r = .ok (aw', al', r'))
    (hdist : (tests.map Agent.player).Nodup) (p : P) :
    Counter.get aw' p ≤ Counter.get aw p + 2 * n * cpus.length := by
  induction cpus generalizing aw al r with
  | nil =>
    have h' : (aw, al, r) = (aw', al', r') := by simpa [run_rounds] using h
    simp only [Prod.mk.injEq] at h'
    rw [h'.1]
    simp
  | cons c cs ih =>
    rw [run_rounds_cons] at h
    cases hpr : play_fair_round play c tests n r with
    | error e => rw [hpr] at h; exact absurd h (by simp)
    | ok res =>
      obtain ⟨w, l, r2⟩ := res
      rw [hpr] at h
      have hnd : Counter.NodupKeys (Counter.del w c.player) :=
        Counter.nodupKeys_del w c.player
          (play_fair_round_nodupKeys play c tests n r w l r2 hpr)
      have hstep : Counter.get (Counter.update aw (Counter.del w c.player)) p ≤
          Counter.get aw p + 2 * n := by
        rw [Counter.get_update aw _ hnd p, Counter.get_del]
        by_cases hcp : c.player = p
        · rw [if_pos hcp]; omega
        · rw [if_neg hcp]
          have := play_fair_round_get_bound play hleg c tests n r w l r2 hpr
            hdist p fun hq => hcp hq.symm
          omega
      have hrest := ih _ _ _ h
      have hlen : 2 * n * (c :: cs).length = 2 * n * cs.length + 2 * n := by
        rw [List.length_cons]; ring
      omega

theorem run_rounds_get_sum {P E : Type} [DecidableEq P]
    (play : Board P → Except E (P × String)) (tests : List (Agent P)) (n : Nat)
    (cpus : List (Agent P)) (aw : Counter P) (al : Counter String) (r : Rng)
    (aw' : Counter P) (al' : Counter String) (r' : Rng)
    (h : run_rounds play tests n cpus aw al r = .ok (aw', al', r')) (p : P)
    (hdisj : ∀ c ∈ cpus, p ≠ c.player) :
    Counter.get aw' p = Counter.get aw p +
      ((round_wins play tests n cpus r).map fun w => Counter.get w p).sum := by
  induction cpus generalizing aw al r with
  | nil =>
    have h' : (aw, al, r) = (aw', al', r') := by simpa [run_rounds] using h
    simp only [Prod.mk.injEq] at h'
    rw [h'.1]
    simp [round_wins]
  | cons c cs ih =>
    rw [run_rounds_cons] at h
    cases hpr : play_fair_round play c tests n r with
    | error e => rw [hpr] at h; exact absurd h (by simp)
    | ok res =>
      obtain ⟨w, l, r2⟩ := res
      rw [hpr] at h
      have hnd : Counter.NodupKeys (Counter.del w c.player) :=
        Counter.nodupKeys_del w c.player
          (play_fair_round_nodupKeys play c tests n r w l r2 hpr)
      have hpc : p ≠ c.player := hdisj c (List.mem_cons_self c cs)
      have hstep : Counter.get (Counter.update aw (Counter.del w c.player)) p =
          Counter.get aw p + Counter.get w p := by
        rw [Counter.get_update aw _ hnd p, Counter.get_del,
          if_neg fun hq => hpc hq.symm]
      rw [round_wins_cons, hpr, List.map_cons, List.sum_cons,
        ih _ _ _ h fun c2 hc2 => hdisj c2 (List.mem_cons_of_mem c hc2), hstep]
      ring

theorem run_fair_tournament_ok_inv {P E : Type} [DecidableEq P]
    (play : Board P → Except E (P × String)) (cpus tests : List (Agent P))
    (n : Nat) (r : Rng) (out : TournamentResult P)
    (h : run_fair_tournament play cpus tests n r = .ok out) :
    (∃ r2, run_rounds play tests n cpus [] [] r =
      .ok (out.wins, out.loss_reasons, r2)) ∧
    out.wins.length = tests.length ∧
    out.rates = format_win_rates_values tests out.wins (2 * n * cpus.length) := by
  rw [run_fair_tournament_eq] at h
  cases hrr : run_rounds play tests n cpus [] [] r with
  | error e => rw [hrr] at h; exact absurd h (by simp)
  | ok res =>
    obtain ⟨aw, al, r2⟩ := res
    rw [hrr] at h
    have h0 : (if aw.length = tests.length then
        if Counter.sumValues aw ≤ 2 * n * cpus.length * tests.length then
          Except.ok (⟨aw, al, format_win_rates_values tests aw
            (2 * n * cpus.length)⟩ : TournamentResult P)
        else Except.error TournamentError.assertionFailed
      else Except.error TournamentError.assertionFailed) =
        Except.ok (ε := TournamentError E) out := h
    by_cases h1 : aw.length = tests.length
    · rw [if_pos h1] at h0
      by_cases h2 : Counter.sumValues aw ≤ 2 * n * cpus.length * tests.length
      · rw [if_pos h2] at h0
        have hout : out =
            ⟨aw, al, format_win_rates_values tests aw (2 * n * cpus.length)⟩ := by
          simpa using h0.symm
        subst hout
        exact ⟨⟨r2, rfl⟩, h1, rfl⟩
      · rw [if_neg h2] at h0; exact absurd h0 (by simp)
    · rw [if_neg h1] at h0; exact absurd h0 (by simp)

theorem run_fair_tournament_tests_distinct {P E : Type} [DecidableEq P]
    (play : Board P → Except E (P × String)) (hleg : plays_registered play)
    (cpus tests : List (Agent P)) (n : Nat) (r : Rng) (out : TournamentResult P)
    (h : run_fair_tournament play cpus tests n r = .ok out) :
    (tests.map Agent.player).Nodup ∧
    ∀ t ∈ tests, Counter.containsKey out.wins t.player = true := by
  obtain ⟨⟨r2, hrr⟩, hlen, _⟩ :=
    run_fair_tournament_ok_inv play cpus tests n r out h
  have hnd : Counter.NodupKeys out.wins :=
    run_rounds_nodupKeys play tests n cpus [] [] r _ _ _ hrr
      (by simp [Counter.NodupKeys])
  have hsub : ∀ x ∈ out.wins.map Prod.fst, x ∈ tests.map Agent.player := by
    intro x hx
    rcases run_rounds_containsKey play hleg tests n cpus [] [] r _ _ _ hrr x
        ((Counter.containsKey_iff_mem_keys _ x).mpr hx) with hck | hmem
    · exact absurd hck (by simp [Counter.containsKey])
    · exact hmem
  have hKlen : (out.wins.map Prod.fst).length = (tests.map Agent.player).length := by
    rw [List.length_map, List.length_map, hlen]
  have hcardK : (out.wins.map Prod.fst).toFinset.card =
      (out.wins.map Prod.fst).length := List.toFinset_card_of_nodup hnd
  have hsubF : (out.wins.map Prod.fst).toFinset ⊆ (tests.map Agent.player).toFinset :=
    fun x hx => List.mem_toFinset.mpr (hsub x (List.mem_toFinset.mp hx))
  have hcardT_le : (tests.map Agent.player).toFinset.card ≤
      (tests.map Agent.player).length := (tests.map Agent.player).toFinset_card_le
  have hcardK_le : (out.wins.map Prod.fst).toFinset.card ≤
      (tests.map Agent.player).toFinset.card := Finset.card_le_card hsubF
  have hTcard : (tests.map Agent.player).toFinset.card =
      (tests.map Agent.player).length := by omega
  have hTnd : (tests.map Agent.player).Nodup := by
    have hdlen : (tests.map Agent.player).dedup.length =
        (tests.map Agent.player).length := by
      rw [← List.card_toFinset]; exact hTcard
    have hdT := (List.dedup_sublist (tests.map Agent.player)).eq_of_length hdlen
    rw [← hdT]
    exact List.nodup_dedup (tests.map Agent.player)
  have hKT : (out.wins.map Prod.fst).toFinset = (tests.map Agent.player).toFinset :=
    Finset.eq_of_subset_of_card_le hsubF (by omega)
  refine ⟨hTnd, ?_⟩
  intro t ht
  have hmemT : t.player ∈ (tests.map Agent.player).toFinset :=
    List.mem_toFinset.mpr (List.mem_map.mpr ⟨t, ht, rfl⟩)
  have hmemK : t.player ∈ out.wins.map Prod.fst :=
    List.mem_toFinset.mp (hKT ▸ hmemT)
  exact (Counter.containsKey_iff_mem_keys _ _).mpr hmemK

/-- C9: `run_fair_tournament` completes and returns results only if every
test agent's player identity is distinct and has at least one recorded win
in the tournament-wide tally (this is the closing
`assert len(all_test_agent_wins) == len(test_agents)`): if any test agent
wins zero games across all rounds, or two test agents share a player, the
assertion fails and nothing is returned.  Assumes the collaborator names
winners among each game's registered competitors. -/
theorem completion_requires_distinct_winning_test_agents {P E : Type}
    [DecidableEq P] (play : Board P → Except E (P × String))
    (hleg : plays_registered play) (cpus tests : List (Agent P)) (n : Nat)
    (r : Rng) (out : TournamentResult P)
    (h : run_fair_tournament play cpus tests n r = .ok out) :
    (tests.map Agent.player).Nodup ∧
    ∀ t ∈ tests, 1 ≤ Counter.get out.wins t.player := by
  obtain ⟨hnd, hall⟩ :=
    run_fair_tournament_tests_distinct play hleg cpus tests n r out h
  obtain ⟨⟨r2, hrr⟩, _, _⟩ := run_fair_tournament_ok_inv play cpus tests n r out h
  have hpos : Counter.AllPos out.wins :=
    run_rounds_allPos play tests n cpus [] [] r _ _ _ hrr
      (by intro kv hkv; simp at hkv)
  exact ⟨hnd, fun t ht =>
    Counter.get_pos_of_containsKey out.wins t.player hpos (hall t ht)⟩

/-- C6: on a completed tournament, every competitor's tournament-wide win
count is at most `2 * num_matches * len(cpu_agents)` (the number of games
each test agent plays, `numberOfRounds = len(cpu_agents)`), and the reported
win rates are exactly each test agent's win count divided by
`2 * num_matches * len(cpu_agents)`.  Assumes the collaborator names winners
among each game's registered competitors. -/
theorem tournament_win_bound_and_rates {P E : Type} [DecidableEq P]
    (play : Board P → Except E (P × String)) (hleg : plays_registered play)
    (cpus tests : List (Agent P)) (n : Nat) (r : Rng) (out : TournamentResult P)
    (h : run_fair_tournament play cpus tests n r = .ok out) :
    (∀ p : P, Counter.get out.wins p ≤ 2 * n * cpus.length) ∧
    out.rates = tests.map fun t =>
      (Counter.get out.wins t.player : ℚ) / ((2 * n * cpus.length : Nat) : ℚ) := by
  obtain ⟨⟨r2, hrr⟩, hlen, hrates⟩ :=
    run_fair_tournament_ok_inv play cpus tests n r out h
  obtain ⟨hnd, _⟩ :=
    run_fair_tournament_tests_distinct play hleg cpus tests n r out h
  refine ⟨fun p => ?_, ?_⟩
  · have := run_rounds_get_bound play hleg tests n cpus [] [] r _ _ _ hrr hnd p
    simpa [Counter.get] using this
  · rw [hrates]; rfl

/-- C7 (amended): over any list of rounds (so in particular over every
prefix of the tournament, i.e. every reachable state of the accumulating
loop), provided no anchor's player identity coincides with any test agent's
player and the collaborator names winners among registered competitors: the
anchor's entry is removed before each merge, so the tournament-wide map
contains no anchor's key and only test agents' keys, and each test agent's
accumulated count is the sum of its raw per-round counts. -/
theorem anchor_removed_and_counts_merge {P E : Type} [DecidableEq P]
    (play : Board P → Except E (P × String)) (hleg : plays_registered play)
    (cpus tests : List (Agent P)) (n : Nat) (r : Rng)
    (hdisj : ∀ c ∈ cpus, ∀ t ∈ tests, c.player ≠ t.player)
    (aw : Counter P) (al : Counter String) (r' : Rng)
    (h : run_rounds play tests n cpus [] [] r = .ok (aw, al, r')) :
    (∀ c ∈ cpus, Counter.containsKey aw c.player = false) ∧
    (∀ p, Counter.containsKey aw p = true → p ∈ tests.map Agent.player) ∧
    (∀ t ∈ tests, Counter.get aw t.player =
      ((round_wins play tests n cpus r).map fun w =>
        Counter.get w t.player).sum) := by
  have hkeys : ∀ p, Counter.containsKey aw p = true →
      p ∈ tests.map Agent.player := by
    intro p hk
    rcases run_rounds_containsKey play hleg tests n cpus [] [] r aw al r' h p hk
      with hck | hm
    · exact absurd hck (by simp [Counter.containsKey])
    · exact hm
  refine ⟨?_, hkeys, ?_⟩
  · intro c hc
    cases hck : Counter.containsKey aw c.player
    · rfl
    · obtain ⟨t, ht, hEq⟩ := List.mem_map.mp (hkeys _ hck)
      exact absurd hEq.symm (hdisj c hc t ht)
  · intro t ht
    have := run_rounds_get_sum play tests n cpus [] [] r aw al r' h t.player
      fun c hc hq => hdisj c hc t ht hq.symm
    simpa [Counter.get] using this

/-- C7 counterexample: when the second round's anchor wraps the same player
object as the test agent, the deletion in round 2 cannot undo the merge
from round 1 — after the run the tournament-wide map still contains that
anchor's key, and the test agent's accumulated count (1) is not the sum of
its raw per-round counts (1 + 2 = 3). -/
theorem anchor_key_leak_counterexample :
    run_rounds (fun g => .ok (g.player1, "loss") : Board Nat → Except Unit (Nat × String))
        [⟨1, "t"⟩] 1 [⟨0, "c0"⟩, ⟨1, "c1"⟩] [] [] ⟨fun _ => 0, 0⟩ =
      .ok ([(1, 1)], [("loss", 4)], ⟨fun _ => 0, 4⟩) ∧
    Counter.containsKey [((1 : Nat), 1)] ((⟨1, "c1"⟩ : Agent Nat).player) = true ∧
    ((round_wins (fun g => .ok (g.player1, "loss") : Board Nat → Except Unit (Nat × String))
        [⟨1, "t"⟩] 1 [⟨0, "c0"⟩, ⟨1, "c1"⟩] ⟨fun _ => 0, 0⟩).map fun w =>
      Counter.get w ((⟨1, "t"⟩ : Agent Nat).player)).sum = 3 ∧
    Counter.get [((1 : Nat), 1)] ((⟨1, "t"⟩ : Agent Nat).player) = 1 :=
  ⟨rfl, by decide, by decide, by decide⟩

/-- Witness for the amended C7: anchor `10`, disjoint test agents `0, 1`,
one match, winner is always the first registered player. -/
theorem anchor_removed_and_counts_merge_witness :
    plays_registered (fun g => .ok (g.player1, "loss") : Board Nat → Except Unit (Nat × String)) ∧
    ((∀ c ∈ ([⟨10, "c"⟩] : List (Agent Nat)),
      Counter.containsKey [((0 : Nat), 1), (1, 1)] c.player = false) ∧
    (∀ p, Counter.containsKey [((0 : Nat), 1), (1, 1)] p = true →
      p ∈ ([⟨0, "a"⟩, ⟨1, "b"⟩] : List (Agent Nat)).map Agent.player) ∧
    (∀ t ∈ ([⟨0, "a"⟩, ⟨1, "b"⟩] : List (Agent Nat)),
      Counter.get [((0 : Nat), 1), (1, 1)] t.player =
        ((round_wins (fun g => .ok (g.player1, "loss") : Board Nat → Except Unit (Nat × String))
            [⟨0, "a"⟩, ⟨1, "b"⟩] 1 [⟨10, "c"⟩] ⟨fun _ => 0, 0⟩).map fun w =>
          Counter.get w t.player).sum)) :=
  ⟨fun g w l hgw => by cases hgw; exact Or.inl rfl,
   anchor_removed_and_counts_merge
     (fun g => .ok (g.player1, "loss") : Board Nat → Except Unit (Nat × String))
     (fun g w l hgw => by cases hgw; exact Or.inl rfl)
     [⟨10, "c"⟩] [⟨0, "a"⟩, ⟨1, "b"⟩] 1 ⟨fun _ => 0, 0⟩ (by decide)
     [(0, 1), (1, 1)] [("loss", 4)] ⟨fun _ => 0, 2⟩ rfl⟩

/-- Witness for C6: one round (anchor `10`), test agents `0, 1`, one match;
each test agent wins 1 of its 2 games and the reported rates are `1/2`. -/
theorem tournament_win_bound_and_rates_witness :
    plays_registered (fun g => .ok (g.player1, "loss") : Board Nat → Except Unit (Nat × String)) ∧
    ((∀ p : Nat, Counter.get [((0 : Nat), 1), (1, 1)] p ≤ 2 * 1 * ([⟨10, "c"⟩] : List (Agent Nat)).length) ∧
    (⟨[(0, 1), (1, 1)], [("loss", 4)],
        format_win_rates_values [⟨0, "a"⟩, ⟨1, "b"⟩] [(0, 1), (1, 1)]
          (2 * 1 * 1)⟩ : TournamentResult Nat).rates =
      ([⟨0, "a"⟩, ⟨1, "b"⟩] : List (Agent Nat)).map fun t =>
        (Counter.get [((0 : Nat), 1), (1, 1)] t.player : ℚ) /
          ((2 * 1 * ([⟨10, "c"⟩] : List (Agent Nat)).length : Nat) : ℚ)) :=
  ⟨fun g w l hgw => by cases hgw; exact Or.inl rfl,
   tournament_win_bound_and_rates
     (fun g => .ok (g.player1, "loss") : Board Nat → Except Unit (Nat × String))
     (fun g w l hgw => by cases hgw; exact Or.inl rfl)
     [⟨10, "c"⟩] [⟨0, "a"⟩, ⟨1, "b"⟩] 1 ⟨fun _ => 0, 0⟩
     ⟨[(0, 1), (1, 1)], [("loss", 4)],
       format_win_rates_values [⟨0, "a"⟩, ⟨1, "b"⟩] [(0, 1), (1, 1)] (2 * 1 * 1)⟩
     rfl⟩

/-- Witness for C9: the same completed tournament; both test players are
distinct and each records at least one win. -/
theorem completion_requires_distinct_winning_test_agents_witness :
    plays_registered (fun g => .ok (g.player1, "loss") : Board Nat → Except Unit (Nat × String)) ∧
    ((([⟨0, "a"⟩, ⟨1, "b"⟩] : List (Agent Nat)).map Agent.player).Nodup ∧
    ∀ t ∈ ([⟨0, "a"⟩, ⟨1, "b"⟩] : List (Agent Nat)),
      1 ≤ Counter.get (⟨[(0, 1), (1, 1)], [("loss", 4)],
        format_win_rates_values [⟨0, "a"⟩, ⟨1, "b"⟩] [(0, 1), (1, 1)]
          (2 * 1 * 1)⟩ : TournamentResult Nat).wins t.player) :=
  ⟨fun g w l hgw => by cases hgw; exact Or.inl rfl,
   completion_requires_distinct_winning_test_agents
     (fun g => .ok (g.player1, "loss") : Board Nat → Except Unit (Nat × String))
     (fun g w l hgw => by cases hgw; exact Or.inl rfl)
     [⟨10, "c"⟩] [⟨0, "a"⟩, ⟨1, "b"⟩] 1 ⟨fun _ => 0, 0⟩
     ⟨[(0, 1), (1, 1)], [("loss", 4)],
       format_win_rates_values [⟨0, "a"⟩, ⟨1, "b"⟩] [(0, 1), (1, 1)] (2 * 1 * 1)⟩
     rfl⟩
